import Mathlib

/-!
Verification of the ergosum transactional-history checker
(`src/transaction.rs` and `src/ser_checker.rs`): the data model, the SER
backtracking search `SerChecker::check`, and the history facade
operations `pre_init`, `ser_check`, `prefix_check`, `si_check`.

Modelling conventions:

* `usize` is modelled as `Nat`; two's-complement wrapping is made
  explicit (`% 2 ^ 64`) where the Rust code can overflow.
* Rust panics (`unwrap` on a missing map entry, the `unreachable!`
  branches) are modelled as `Option`/`RunRes.crash` results.
* `HashMap` / `HashSet` values are modelled as association lists /
  lists kept in insertion order.  Every fold the source performs over a
  hash container is order-independent (an `&&`-fold over all elements,
  or the construction of a transaction of `Set`s whose order the search
  never inspects), so the fixed order does not affect any boolean
  outcome.
* The recursion of `check` is expressed with an explicit fuel
  parameter; `SerChecker.check` supplies `target_len + 1` fuel, which
  is shown sufficient (the recursion depth is bounded by the number of
  unplaced transactions).  Exhaustion is the distinct result
  `RunRes.fuelout`.
* The second component of `check_fuel`'s result is a ghost trace
  recording the frontier vector at entry to every recursive call; the
  first component is exactly the translation of the source.
-/

namespace Ergosum

/-- The Rust enum `Op<K, V>`: a write `Set {key, val}` or a read
`Get {key, val}` whose `val` is the observed value. -/
inductive Op (K V : Type) where
  | set (key : K) (val : V)
  | get (key : K) (val : V)
deriving DecidableEq

/-- The Rust struct `Transaction<K, V>`: an ordered list of operations. -/
structure Transaction (K V : Type) where
  ops : List (Op K V)
deriving DecidableEq

/-- A per-client list of transaction lists, the `transactions` field of
both `SerChecker` and `History`. -/
abbrev Txns (K V : Type) := List (List (Transaction K V))

/-- True iff the operation is a `Get`. -/
def Op.isGet {K V : Type} : Op K V → Bool
  | .get _ _ => true
  | .set _ _ => false

/-- True iff the operation is a `Set`. -/
def Op.isSet {K V : Type} : Op K V → Bool
  | .get _ _ => false
  | .set _ _ => true

/-- The key of an operation. -/
def Op.key {K V : Type} : Op K V → K
  | .get k _ => k
  | .set k _ => k

/-- The trait `GenerateGuard`: derivation of a synthetic guard key from a
key and a client index. -/
class GenerateGuard (K : Type) where
  generate_guard : K → Nat → K

/-- The trait `AbnormalValue`: the poison marker value. -/
class AbnormalValue (V : Type) where
  abnormal_value : V

/-- The source `impl GenerateGuard for usize` is `index << 10 + *self`,
which by Rust operator precedence is `index << (10 + *self)`.  The
result wraps modulo `2 ^ 64` (bits shifted beyond the word are
discarded); the theorems below only instantiate it at shift amounts
below the word size, where debug and release Rust agree. -/
instance : GenerateGuard Nat where
  generate_guard k index := (index <<< (10 + k)) % 2 ^ 64

/-- The source `impl AbnormalValue for usize` returns `1`. -/
instance : AbnormalValue Nat where
  abnormal_value := 1

/-- The source `impl GenerateGuard for String` formats
`"__checker__{index}__{self}"`. -/
instance : GenerateGuard String where
  generate_guard k index := "__checker__" ++ toString index ++ "__" ++ k

/-- The source `impl AbnormalValue for String` returns `"1"`. -/
instance : AbnormalValue String where
  abnormal_value := "1"

/-- `Transaction::writes`: true iff the transaction contains a
`Set(key, _)`. -/
def Transaction.writes {K V : Type} [DecidableEq K] (t : Transaction K V) (key : K) : Bool :=
  t.ops.any fun o =>
    match o with
    | .set k _ => decide (k = key)
    | .get _ _ => false

/-- `Transaction::split`: the read-only prefix (all `Get`s, in order)
and the write-only suffix (all `Set`s, in order).  The source loop
pushes each operation into `gets` or `sets` while preserving order,
which is exactly a filter. -/
def Transaction.split {K V : Type} (t : Transaction K V) :
    Transaction K V × Transaction K V :=
  (⟨t.ops.filter Op.isGet⟩, ⟨t.ops.filter Op.isSet⟩)

/-- All transactions with their positions `(c, d)`, in scan order.  This
is the enumeration performed by `SerChecker::new` while building the
reverse index. -/
def positions {K V : Type} (ts : Txns K V) : List ((Nat × Nat) × Transaction K V) :=
  ts.enum.flatMap fun ic => ic.2.enum.map fun dt => ((ic.1, dt.1), dt.2)

/-- The reverse index `kv_rev` of `SerChecker`, represented
extensionally: `writers ts k v` is the list of positions `(c, d)` of
transactions containing `Set(k, v)`.  A `(k, v)` pair is absent from the
source `HashMap` exactly when this list is empty (entries are created
non-empty and never removed), so `[]` models the absent case. -/
def writers {K V : Type} [DecidableEq K] [DecidableEq V] (ts : Txns K V) (k : K) (v : V) :
    List (Nat × Nat) :=
  (positions ts).filterMap fun pt =>
    if pt.2.ops.any fun o =>
        match o with
        | .set k' v' => decide (k' = k ∧ v' = v)
        | .get _ _ => false
    then some pt.1 else none

/-- `SerChecker::target_len`: the total number of transactions. -/
def target_len {K V : Type} (ts : Txns K V) : Nat :=
  (ts.map List.length).sum

/-- `SerChecker::searched_len`: the number of placed transactions. -/
def searched_len (searched : List Nat) : Nat :=
  searched.sum

/-- The mutable state of one `check` run: the frontier vector
`searched` and the memoization map `searched_cache` (an association
list; insertion is a cons, so lookup sees the newest binding exactly as
a `HashMap` does). -/
structure CState where
  searched : List Nat
  cache : List (List Nat × Bool)
deriving DecidableEq

/-- Result of running a piece of panicking, fuelled code: a normal
value, a Rust panic (`crash`), or fuel exhaustion (`fuelout`, which the
top-level entry point is given enough fuel never to produce). -/
inductive RunRes (α : Type) where
  | ok (val : α)
  | crash
  | fuelout
deriving DecidableEq

/-- The read-feasibility filter of `check`: scan the candidate's
operations in order; at each `Get(k, v)`, look up the reverse index
(`none` models the `unwrap` panic when the entry is absent), and if
every recorded writer `(c, d)` satisfies `d >= searched[c]` the
candidate is rejected (`some true` models `continue 'a`). -/
def read_filter {K V : Type} [DecidableEq K] [DecidableEq V]
    (ts : Txns K V) (searched : List Nat) : List (Op K V) → Option Bool
  | [] => some false
  | .set _ _ :: rest => read_filter ts searched rest
  | .get k v :: rest =>
    let ws := writers ts k v
    if ws.isEmpty then none
    else if ws.all fun cd => searched.getD cd.1 0 ≤ cd.2 then some true
    else read_filter ts searched rest

/-- Innermost loop of the write-conflict filter of `check`: scan one
future transaction's operations; at each `Get(k, v)` whose key the
candidate writes, look up the reverse index (`none` models the `unwrap`
panic) and reject the candidate (`some true`, i.e. `continue 'a`) when
every recorded writer lies strictly behind the frontier. -/
def conflict_ops {K V : Type} [DecidableEq K] [DecidableEq V]
    (ts : Txns K V) (searched : List Nat) (considering : Transaction K V) :
    List (Op K V) → Option Bool
  | [] => some false
  | .set _ _ :: rest => conflict_ops ts searched considering rest
  | .get k v :: rest =>
    if considering.writes k then
      let ws := writers ts k v
      if ws.isEmpty then none
      else if ws.all fun cd => cd.2 < searched.getD cd.1 0 then some true
      else conflict_ops ts searched considering rest
    else conflict_ops ts searched considering rest

/-- Middle loop of the write-conflict filter: scan the given future
transactions of one client. -/
def conflict_txns {K V : Type} [DecidableEq K] [DecidableEq V]
    (ts : Txns K V) (searched : List Nat) (considering : Transaction K V) :
    List (Transaction K V) → Option Bool
  | [] => some false
  | t :: rest =>
    match conflict_ops ts searched considering t.ops with
    | none => none
    | some true => some true
    | some false => conflict_txns ts searched considering rest

/-- Outer loop of the write-conflict filter: for each client
`ci` the scanned transactions start at `bottom = searched[ci]`,
plus one when `ci` is the candidate's own client (excluding the
candidate itself). -/
def conflict_clients {K V : Type} [DecidableEq K] [DecidableEq V]
    (ts : Txns K V) (searched : List Nat) (considering : Transaction K V)
    (index : Nat) : List Nat → Option Bool
  | [] => some false
  | ci :: rest =>
    let bottom := searched.getD ci 0 + (if ci = index then 1 else 0)
    match conflict_txns ts searched considering ((ts.getD ci []).drop bottom) with
    | none => none
    | some true => some true
    | some false => conflict_clients ts searched considering index rest

/-- The loop `'a: for index in 0..self.transactions.len()` of `check`,
over the list of remaining client indices.  `recur` is the recursive
call to `check` (one fuel level down).  Each arm is the direct
translation of the corresponding branch of the source: filter rejection
continues with the next index; after advancing `searched[index]`, a
cached `true` returns immediately, a cached `false` undoes the advance
and continues, and on a cache miss the result of the recursive call is
memoized (keyed, as in the source, by the frontier as it stands after
the recursive call returns), returning on `true` and undoing the
advance on `false`.  The second result component accumulates the ghost
trace of recursive-call entry frontiers. -/
def loop_clients {K V : Type} [DecidableEq K] [DecidableEq V] (ts : Txns K V)
    (recur : CState → RunRes (Bool × CState) × List (List Nat)) :
    CState → List Nat → RunRes (Bool × CState) × List (List Nat)
  | s, [] => (.ok (false, s), [])
  | s, index :: rest =>
    if s.searched.getD index 0 < (ts.getD index []).length then
      let considering := (ts.getD index []).getD (s.searched.getD index 0) ⟨[]⟩
      match read_filter ts s.searched considering.ops with
      | none => (.crash, [])
      | some true => loop_clients ts recur s rest
      | some false =>
        match conflict_clients ts s.searched considering index (List.range ts.length) with
        | none => (.crash, [])
        | some true => loop_clients ts recur s rest
        | some false =>
          let s1 : CState := ⟨s.searched.set index (s.searched.getD index 0 + 1), s.cache⟩
          match s1.cache.lookup s1.searched with
          | some true => (.ok (true, s1), [])
          | some false =>
            loop_clients ts recur
              ⟨s1.searched.set index (s1.searched.getD index 0 - 1), s1.cache⟩ rest
          | none =>
            match recur s1 with
            | (.ok (true, s2), tr) =>
              (.ok (true, ⟨s2.searched, (s2.searched, true) :: s2.cache⟩), tr)
            | (.ok (false, s2), tr) =>
              let s3 : CState := ⟨s2.searched.set index (s2.searched.getD index 0 - 1),
                                  (s2.searched, false) :: s2.cache⟩
              let r2 := loop_clients ts recur s3 rest
              (r2.1, tr ++ r2.2)
            | (.crash, tr) => (.crash, tr)
            | (.fuelout, tr) => (.fuelout, tr)
    else loop_clients ts recur s rest

/-- `SerChecker::check`, with explicit fuel for the recursion.  The
terminal test compares the number of placed transactions with the
total; otherwise the client loop runs.  The trace records this call's
entry frontier followed by the entry frontiers of all nested calls. -/
def check_fuel {K V : Type} [DecidableEq K] [DecidableEq V] (ts : Txns K V) :
    Nat → CState → RunRes (Bool × CState) × List (List Nat)
  | 0, s => (.fuelout, [s.searched])
  | fuel + 1, s =>
    if searched_len s.searched = target_len ts then (.ok (true, s), [s.searched])
    else
      let r := loop_clients ts (fun s' => check_fuel ts fuel s') s (List.range ts.length)
      (r.1, s.searched :: r.2)

/-- The initial frontier built by `SerChecker::new`: one zero per client. -/
def zero_searched {K V : Type} (ts : Txns K V) : List Nat :=
  List.replicate ts.length 0

/-- `SerChecker::new` followed by `check`: the search starts from the
zero frontier and an empty memoization map.  `target_len ts + 1` fuel
covers the recursion, whose depth is bounded by the number of unplaced
transactions. -/
def SerChecker.check {K V : Type} [DecidableEq K] [DecidableEq V] (ts : Txns K V) :
    RunRes (Bool × CState) × List (List Nat) :=
  check_fuel ts (target_len ts + 1) ⟨zero_searched ts, []⟩

/-- The Rust struct `History<K, V>`. -/
structure History (K V : Type) where
  transactions : Txns K V

/-- All operations of a history paired with their client index, in the
scan order of `History::vars` (clients in order, transactions in order,
operations in order). -/
def client_ops {K V : Type} (H : History K V) : List (Nat × Op K V) :=
  H.transactions.enum.flatMap fun ic =>
    ic.2.flatMap fun t => t.ops.map fun op => (ic.1, op)

/-- One step of the fold inside `History::vars`.  For a `Get`, insert an
empty entry when the key is absent.  For a `Set`, insert the client
index into the existing entry when the key is present — but when the
key is absent, insert an *empty* entry, dropping the index (this is the
source's behaviour, faithfully reproduced). -/
def vars_insert {K V : Type} [DecidableEq K] (m : List (K × List Nat)) (index : Nat) :
    Op K V → List (K × List Nat)
  | .get k _ => if (m.lookup k).isSome then m else m ++ [(k, [])]
  | .set k _ =>
    match m.lookup k with
    | some times =>
      m.map fun p =>
        if p.1 = k then (k, if index ∈ times then times else times ++ [index]) else p
    | none => m ++ [(k, [])]

/-- `History::vars`: fold `vars_insert` over every operation of the
history in scan order. -/
def History.vars {K V : Type} [DecidableEq K] (H : History K V) : List (K × List Nat) :=
  (client_ops H).foldl (fun m p => vars_insert m p.1 p.2) []

/-- The synthetic initial transaction built by `History::pre_init`: one
`Set(k, default)` per key of `vars`. -/
def init_transaction {K V : Type} [DecidableEq K] [Inhabited V] (H : History K V) :
    Transaction K V :=
  ⟨(History.vars H).map fun p => Op.set p.1 default⟩

/-- `History::pre_init`: append one additional client holding the
synthetic initial transaction. -/
def History.pre_init {K V : Type} [DecidableEq K] [Inhabited V] (H : History K V) :
    History K V :=
  ⟨H.transactions ++ [[init_transaction H]]⟩

/-- `History::ser_check`: pre-initialize a copy and run the SER search,
keeping only the boolean. -/
def History.ser_check {K V : Type} [DecidableEq K] [DecidableEq V] [Inhabited V]
    (H : History K V) : RunRes Bool :=
  match (SerChecker.check (H.pre_init).transactions).1 with
  | .ok bs => .ok bs.1
  | .crash => .crash
  | .fuelout => .fuelout

/-- `History::prefix_check`: rewrite every transaction into its split
pair inside its client (the source pushes `r` then `w` for each
transaction) and run `ser_check`. -/
def History.prefix_check {K V : Type} [DecidableEq K] [DecidableEq V] [Inhabited V]
    (H : History K V) : RunRes Bool :=
  (History.mk (H.transactions.map fun c =>
    c.foldl (fun client t => client ++ [t.split.1, t.split.2]) [])).ser_check

/-- The guard operations pushed into the write half for one `Set(k, _)`
of the SI rewrite: for every recorded writing client `c` of `k`, a
`Set(guard(k, c), abnormal)` when `c` is another client, and a
`Get(guard(k, c), default)` when `c` is the transaction's own client. -/
def guard_ops {K V : Type} [GenerateGuard K] [Inhabited V] [AbnormalValue V]
    (index : Nat) (k : K) (clients : List Nat) : List (Op K V) :=
  clients.map fun c =>
    if c ≠ index then Op.set (GenerateGuard.generate_guard k c) AbnormalValue.abnormal_value
    else Op.get (GenerateGuard.generate_guard k c) default

/-- The loop of `History::si_check` over the (original) operations of a
split write half.  The iteration range `0..w.ops.len()` of the source
is fixed before any guard operation is appended, so exactly the
original operations are visited; the appended reads and writes are
accumulated here and concatenated afterwards.  `none` models the two
`unreachable!` panics: a `Get` in the write half, or a key absent from
`vars_map`. -/
def si_ops {K V : Type} [DecidableEq K] [GenerateGuard K] [Inhabited V] [AbnormalValue V]
    (vars_map : List (K × List Nat)) (index : Nat) :
    List (Op K V) → Option (List (Op K V) × List (Op K V))
  | [] => some ([], [])
  | .get _ _ :: _ => none
  | .set k _ :: rest =>
    match vars_map.lookup k with
    | none => none
    | some clients =>
      match si_ops vars_map index rest with
      | none => none
      | some rw =>
        some (Op.set (GenerateGuard.generate_guard k index) default :: rw.1,
              guard_ops index k clients ++ rw.2)

/-- The SI rewrite of one transaction: split it, then extend the read
half and the write half with the guard operations. -/
def si_txn {K V : Type} [DecidableEq K] [GenerateGuard K] [Inhabited V] [AbnormalValue V]
    (vars_map : List (K × List Nat)) (index : Nat) (t : Transaction K V) :
    Option (Transaction K V × Transaction K V) :=
  match si_ops vars_map index (t.split.2).ops with
  | none => none
  | some rw => some (⟨(t.split.1).ops ++ rw.1⟩, ⟨(t.split.2).ops ++ rw.2⟩)

/-- The SI rewrite of one client: each transaction becomes its rewritten
read half followed by its rewritten write half. -/
def si_client {K V : Type} [DecidableEq K] [GenerateGuard K] [Inhabited V] [AbnormalValue V]
    (vars_map : List (K × List Nat)) (index : Nat) :
    List (Transaction K V) → Option (List (Transaction K V))
  | [] => some []
  | t :: rest =>
    match si_txn vars_map index t, si_client vars_map index rest with
    | some rw, some cl => some (rw.1 :: rw.2 :: cl)
    | _, _ => none

/-- The SI rewrite over the enumerated clients. -/
def si_clients {K V : Type} [DecidableEq K] [GenerateGuard K] [Inhabited V] [AbnormalValue V]
    (vars_map : List (K × List Nat)) :
    List (Nat × List (Transaction K V)) → Option (Txns K V)
  | [] => some []
  | ic :: rest =>
    match si_client vars_map ic.1 ic.2, si_clients vars_map rest with
    | some c, some cs => some (c :: cs)
    | _, _ => none

/-- The rewriting phase of `History::si_check`: `vars` is computed once
on the original history, then every client is rewritten. -/
def History.si_rewrite {K V : Type} [DecidableEq K] [GenerateGuard K] [Inhabited V]
    [AbnormalValue V] (H : History K V) : Option (Txns K V) :=
  si_clients (History.vars H) H.transactions.enum

/-- `History::si_check`: rewrite with the guard encoding, then
`ser_check`. -/
def History.si_check {K V : Type} [DecidableEq K] [DecidableEq V] [GenerateGuard K]
    [Inhabited V] [AbnormalValue V] (H : History K V) : RunRes Bool :=
  match H.si_rewrite with
  | none => .crash
  | some ts => (History.mk ts).ser_check

/-- Follows the spec's words for the split rewrite: the history obtained
by replacing each transaction `T` of each client, in place, with the
consecutive pair `(T_r, T_w) = split(T)`, doubling that client's length
and touching no other client. -/
def split_rewrite_spec {K V : Type} (H : History K V) : History K V :=
  ⟨H.transactions.map fun c => c.flatMap fun t => [t.split.1, t.split.2]⟩
/-- Validity of a frontier vector for a given transaction table: right
length, and within every client bound. -/
def frontier_ok {K V : Type} (ts : Txns K V) (F : List Nat) : Prop :=
  F.length = ts.length ∧ ∀ c < ts.length, F.getD c 0 ≤ (ts.getD c []).length

instance frontier_ok_dec {K V : Type} (ts : Txns K V) (F : List Nat) :
    Decidable (frontier_ok ts F) :=
  decidable_of_iff
    (F.length = ts.length ∧ ∀ c < ts.length, F.getD c 0 ≤ (ts.getD c []).length) Iff.rfl

/-- The invariant of the search in the presence of a never-written read
at position `(cb, db)`: a valid frontier that has not passed `db` on
client `cb`, and a memoization cache with no `true` entry. -/
def search_inv {K V : Type} (ts : Txns K V) (cb db : Nat) (s : CState) : Prop :=
  frontier_ok ts s.searched ∧ s.searched.getD cb 0 ≤ db ∧
    ∀ F, s.cache.lookup F ≠ some true

/-- True iff some transaction of `ts` reads a `(k, v)` pair that no
transaction of `ts` writes (the reverse-index entry is absent). -/
def has_unwritten_read {K V : Type} [DecidableEq K] [DecidableEq V] (ts : Txns K V) : Bool :=
  (positions ts).any fun pt => pt.2.ops.any fun o =>
    match o with
    | .get k v => (writers ts k v).isEmpty
    | .set _ _ => false

/-- Decimal digit string of a natural number, most significant digit
first (the list that `Nat.repr` produces). -/
def decDigits (n : Nat) : List Char :=
  if h : n < 10 then [Nat.digitChar n]
  else decDigits (n / 10) ++ [Nat.digitChar (n % 10)]
decreasing_by
  exact Nat.div_lt_self (by omega) (by omega)

/-- Value recovered from a decimal digit string. -/
def decVal (l : List Char) : Nat :=
  l.foldl (fun a c => 10 * a + (c.toNat - 48)) 0

/-- A key appears in some operation (read or write) of the history. -/
def key_occurs {K V : Type} (H : History K V) (k : K) : Prop :=
  ∃ cl ∈ H.transactions, ∃ t ∈ cl, ∃ o ∈ t.ops, (o : Op K V).key = k

/-- A key is read somewhere in the history. -/
def key_read {K V : Type} (H : History K V) (k : K) : Prop :=
  ∃ cl ∈ H.transactions, ∃ t ∈ cl, ∃ v : V, Op.get k v ∈ t.ops

/-- Projection of a finished search run: the returned boolean together
with the final frontier, or `none` when the run did not return
normally. -/
def run_final (r : RunRes (Bool × CState) × List (List Nat)) : Option (Bool × List Nat) :=
  match r.1 with
  | .ok bs => some (bs.1, bs.2.searched)
  | .crash => none
  | .fuelout => none

/-- A history whose only operation reads a value nobody ever writes. -/
def badRead : History Nat Nat := ⟨[[⟨[Op.get 0 5]⟩]]⟩

/-- A single client with a single write, serializable trivially. -/
def singleWrite : Txns Nat Nat := [[⟨[Op.set 0 1]⟩]]

/-- A single client whose only transaction writes `x` — the first (and
only) `Set` of the key in scan order. -/
def firstSetH : History String Nat := ⟨[[⟨[Op.set "x" 1]⟩]]⟩

/-- The write-skew history of the test suite: two clients, each reading
`x = 0` and `y = 0` and writing one of the keys. -/
def writeSkew : History String Nat :=
  ⟨[[⟨[Op.get "x" 0, Op.get "y" 0, Op.set "x" 1]⟩],
    [⟨[Op.get "x" 0, Op.get "y" 0, Op.set "y" 1]⟩]]⟩

/-- One client whose transaction reads a value written only by itself. -/
def selfRead : Txns Nat Nat := [[⟨[Op.get 0 1, Op.set 0 1]⟩]]

end Ergosum

section Helpers
open Ergosum

variable {K V : Type} [DecidableEq K] [DecidableEq V]

theorem getD_set_self (l : List Nat) (i v : Nat) (h : i < l.length) :
    (l.set i v).getD i 0 = v := by
  rw [List.getD_eq_getElem?_getD, List.getElem?_set_self h]
  rfl

theorem set_getD_self (l : List Nat) (i : Nat) : l.set i (l.getD i 0) = l := by
  induction l generalizing i with
  | nil => rfl
  | cons a l ih =>
    cases i with
    | zero => rfl
    | succ i => simpa [List.set, List.getD] using ih i

theorem restore_set (l : List Nat) (i : Nat) :
    (l.set i (l.getD i 0 + 1)).set i ((l.set i (l.getD i 0 + 1)).getD i 0 - 1) = l := by
  by_cases h : i < l.length
  · rw [getD_set_self l i _ h, List.set_set, Nat.add_sub_cancel, set_getD_self]
  · rw [List.set_eq_of_length_le (le_of_not_lt h),
      List.set_eq_of_length_le (le_of_not_lt h)]

theorem sum_set_succ (l : List Nat) (i : Nat) (h : i < l.length) :
    (l.set i (l.getD i 0 + 1)).sum = l.sum + 1 := by
  induction l generalizing i with
  | nil => simp at h
  | cons a l ih =>
    cases i with
    | zero => simp [List.getD_cons_zero]; omega
    | succ i =>
      have := ih i (by simpa using h)
      simp only [List.getD_cons_succ, List.set_cons_succ, List.sum_cons, this]
      omega

/-- Frontier restoration for the client loop. -/
theorem loop_restore (ts : Txns K V)
    (recur : CState → RunRes (Bool × CState) × List (List Nat))
    (hrec : ∀ s1 s2 tr, recur s1 = (.ok (false, s2), tr) → s2.searched = s1.searched) :
    ∀ (is : List Nat) (s s' : CState) (tr : List (List Nat)),
      loop_clients ts recur s is = (.ok (false, s'), tr) → s'.searched = s.searched := by
  intro is
  induction is with
  | nil =>
    intro s s' tr h
    rw [loop_clients] at h
    cases h
    rfl
  | cons index rest ih =>
    intro s s' tr h
    simp only [loop_clients] at h
    split at h
    case isFalse => exact ih s s' tr h
    case isTrue hidx =>
      split at h
      case h_1 => cases h
      case h_2 => exact ih s s' tr h
      case h_3 =>
        split at h
        case h_1 => cases h
        case h_2 => exact ih s s' tr h
        case h_3 =>
          split at h
          case h_1 => cases h
          case h_2 =>
            have h2 := ih _ s' tr h
            rw [h2, restore_set]
          case h_3 =>
            split at h
            case h_1 heq => cases h
            case h_2 s2 tr2 heq =>
              have hs2 : s2.searched = s.searched.set index (s.searched.getD index 0 + 1) :=
                hrec _ _ _ heq
              have h1 : (loop_clients ts recur
                  ⟨s2.searched.set index (s2.searched.getD index 0 - 1),
                   (s2.searched, false) :: s2.cache⟩ rest).1 = .ok (false, s') :=
                congrArg Prod.fst h
              have hfull := ih _ s' _ (show _ = (_, _) from (by rw [← h1]))
              rw [hfull, hs2, restore_set]
            case h_3 heq => cases h
            case h_4 heq => cases h
end Helpers

section Helpers2
open Ergosum

variable {K V : Type} [DecidableEq K] [DecidableEq V]

/-- Frontier restoration for `check_fuel`: a `false` return leaves the
frontier exactly as it was at entry. -/
theorem check_restore (ts : Txns K V) :
    ∀ (fuel : Nat) (s s' : CState) (tr : List (List Nat)),
      check_fuel ts fuel s = (.ok (false, s'), tr) → s'.searched = s.searched := by
  intro fuel
  induction fuel with
  | zero => intro s s' tr h; rw [check_fuel] at h; cases h
  | succ fuel ih =>
    intro s s' tr h
    rw [check_fuel] at h
    split at h
    · cases h
    · have h1 : (loop_clients ts (fun s2 => check_fuel ts fuel s2) s
          (List.range ts.length)).1 = .ok (false, s') := congrArg Prod.fst h
      exact loop_restore ts _ ih _ s s' _ (by rw [← h1])

theorem getD_set_ne (l : List Nat) (i c v : Nat) (h : c ≠ i) :
    (l.set i v).getD c 0 = l.getD c 0 := by
  rw [List.getD_eq_getElem?_getD, List.getD_eq_getElem?_getD, List.getElem?_set_ne (by omega)]

theorem advance_lt_length (ts : Txns K V) (s : CState) (index : Nat)
    (hidx : s.searched.getD index 0 < (ts.getD index []).length) : index < ts.length := by
  by_contra hc
  have hd : ts.getD index [] = [] := by
    rw [List.getD_eq_getElem?_getD, List.getElem?_eq_none (Nat.le_of_not_lt hc)]
    rfl
  rw [hd] at hidx
  simp at hidx

theorem frontier_ok_advance (ts : Txns K V) (F : List Nat) (index : Nat)
    (hF : frontier_ok ts F) (hidx : F.getD index 0 < (ts.getD index []).length) :
    frontier_ok ts (F.set index (F.getD index 0 + 1)) := by
  obtain ⟨hlen, hbound⟩ := hF
  constructor
  · simpa using hlen
  · intro c hc
    by_cases hci : c = index
    · subst hci
      rw [getD_set_self _ _ _ (by omega)]
      omega
    · rw [getD_set_ne _ _ _ _ hci]
      exact hbound c hc

/-- Every frontier recorded in the ghost trace of the client loop is
valid, assuming the entry frontier is valid and the recursive call obeys
the same property plus frontier restoration on `false`. -/
theorem loop_trace (ts : Txns K V)
    (recur : CState → RunRes (Bool × CState) × List (List Nat))
    (hrecr : ∀ s1 s2 tr, recur s1 = (.ok (false, s2), tr) → s2.searched = s1.searched)
    (hrect : ∀ s1, frontier_ok ts s1.searched → ∀ F ∈ (recur s1).2, frontier_ok ts F) :
    ∀ (is : List Nat) (s : CState), frontier_ok ts s.searched →
      ∀ F ∈ (loop_clients ts recur s is).2, frontier_ok ts F := by
  intro is
  induction is with
  | nil => intro s hs F hF; rw [loop_clients] at hF; cases hF
  | cons index rest ih =>
    intro s hs F hF
    simp only [loop_clients] at hF
    split at hF
    case isFalse => exact ih s hs F hF
    case isTrue hidx =>
      split at hF
      case h_1 => cases hF
      case h_2 => exact ih s hs F hF
      case h_3 =>
        split at hF
        case h_1 => cases hF
        case h_2 => exact ih s hs F hF
        case h_3 =>
          split at hF
          case h_1 => cases hF
          case h_2 =>
            rw [restore_set] at hF
            exact ih s hs F hF
          case h_3 =>
            have hs1 : frontier_ok ts (s.searched.set index (s.searched.getD index 0 + 1)) :=
              frontier_ok_advance ts s.searched index hs hidx
            split at hF
            case h_1 heq =>
              have := hrect ⟨s.searched.set index (s.searched.getD index 0 + 1), s.cache⟩ hs1
              rw [heq] at this
              exact this F hF
            case h_2 s2 tr2 heq =>
              simp only [List.mem_append] at hF
              rcases hF with hF | hF
              · have := hrect ⟨s.searched.set index (s.searched.getD index 0 + 1), s.cache⟩ hs1
                rw [heq] at this
                exact this F hF
              · have hs2 : s2.searched = s.searched.set index (s.searched.getD index 0 + 1) :=
                  hrecr _ _ _ heq
                have hs3 : frontier_ok ts ((s2.searched.set index (s2.searched.getD index 0 - 1))) := by
                  rw [hs2, restore_set]
                  exact hs
                exact ih _ hs3 F hF
            case h_3 heq =>
              have := hrect ⟨s.searched.set index (s.searched.getD index 0 + 1), s.cache⟩ hs1
              rw [heq] at this
              exact this F hF
            case h_4 heq =>
              have := hrect ⟨s.searched.set index (s.searched.getD index 0 + 1), s.cache⟩ hs1
              rw [heq] at this
              exact this F hF

/-- Every frontier recorded in the ghost trace of `check_fuel` — that
is, the frontier at every recursive call boundary — is valid. -/
theorem check_trace (ts : Txns K V) :
    ∀ (fuel : Nat) (s : CState), frontier_ok ts s.searched →
      ∀ F ∈ (check_fuel ts fuel s).2, frontier_ok ts F := by
  intro fuel
  induction fuel with
  | zero =>
    intro s hs F hF
    rw [check_fuel] at hF
    simp only [List.mem_singleton] at hF
    subst hF; exact hs
  | succ fuel ih =>
    intro s hs F hF
    rw [check_fuel] at hF
    split at hF
    · simp only [List.mem_singleton] at hF
      subst hF; exact hs
    · simp only [List.mem_cons] at hF
      rcases hF with hF | hF
      · subst hF; exact hs
      · exact loop_trace ts _ (check_restore ts fuel) ih _ s hs F hF

theorem sum_le_target (F : List Nat) (ts : Txns K V) (hlen : F.length = ts.length)
    (hb : ∀ c < ts.length, F.getD c 0 ≤ (ts.getD c []).length) :
    F.sum ≤ target_len ts := by
  induction ts generalizing F with
  | nil => cases F with
    | nil => simp [target_len]
    | cons a l => simp at hlen
  | cons c cs ih =>
    cases F with
    | nil => simp at hlen
    | cons f fs =>
      have h0 := hb 0 (by simp)
      have hrest : ∀ d < cs.length, fs.getD d 0 ≤ (cs.getD d []).length := by
        intro d hd
        have := hb (d + 1) (by simpa using Nat.succ_lt_succ hd)
        simpa using this
      have := ih fs (by simpa using hlen) hrest
      simp only [target_len, List.map_cons, List.sum_cons, List.sum_cons]
      simp only [List.getD_cons_zero] at h0
      simp only [target_len] at this
      omega

theorem sum_lt_target (F : List Nat) (ts : Txns K V) (hlen : F.length = ts.length)
    (hb : ∀ c < ts.length, F.getD c 0 ≤ (ts.getD c []).length)
    (c0 : Nat) (hc0 : c0 < ts.length) (hstrict : F.getD c0 0 < (ts.getD c0 []).length) :
    F.sum < target_len ts := by
  induction ts generalizing F c0 with
  | nil => simp at hc0
  | cons c cs ih =>
    cases F with
    | nil => simp at hlen
    | cons f fs =>
      have hrest : ∀ d < cs.length, fs.getD d 0 ≤ (cs.getD d []).length := by
        intro d hd
        have := hb (d + 1) (by simpa using Nat.succ_lt_succ hd)
        simpa using this
      have hrlen : fs.length = cs.length := by simpa using hlen
      cases c0 with
      | zero =>
        have hsum := sum_le_target fs cs hrlen hrest
        simp only [List.getD_cons_zero] at hstrict
        simp only [target_len, List.map_cons, List.sum_cons] at *
        omega
      | succ c0 =>
        have := ih fs hrlen hrest c0 (by simpa using hc0) (by simpa using hstrict)
        have h0 := hb 0 (by simp)
        simp only [List.getD_cons_zero] at h0
        simp only [target_len, List.map_cons, List.sum_cons] at *
        omega

/-- The client loop cannot exhaust fuel if the recursive call cannot on
any frontier one step deeper. -/
theorem loop_no_fuelout (ts : Txns K V)
    (recur : CState → RunRes (Bool × CState) × List (List Nat)) (m : Nat)
    (hrecr : ∀ s1 s2 tr, recur s1 = (.ok (false, s2), tr) → s2.searched = s1.searched)
    (hrecf : ∀ s1 : CState, frontier_ok ts s1.searched → searched_len s1.searched = m + 1 →
      (recur s1).1 ≠ .fuelout) :
    ∀ (is : List Nat) (s : CState), frontier_ok ts s.searched →
      searched_len s.searched = m → (loop_clients ts recur s is).1 ≠ .fuelout := by
  intro is
  induction is with
  | nil => intro s hs hm h; rw [loop_clients] at h; cases h
  | cons index rest ih =>
    intro s hs hm h
    simp only [loop_clients] at h
    split at h
    case isFalse => exact ih s hs hm h
    case isTrue hidx =>
      have hil : index < ts.length := advance_lt_length ts s index hidx
      have hisl : index < s.searched.length := by rw [hs.1]; exact hil
      split at h
      case h_1 => cases h
      case h_2 => exact ih s hs hm h
      case h_3 =>
        split at h
        case h_1 => cases h
        case h_2 => exact ih s hs hm h
        case h_3 =>
          split at h
          case h_1 => cases h
          case h_2 =>
            rw [restore_set] at h
            exact ih s hs hm h
          case h_3 =>
            have hs1 : frontier_ok ts (s.searched.set index (s.searched.getD index 0 + 1)) :=
              frontier_ok_advance ts s.searched index hs hidx
            have hm1 : searched_len (s.searched.set index (s.searched.getD index 0 + 1)) = m + 1 := by
              unfold searched_len at hm ⊢
              rw [sum_set_succ s.searched index hisl, hm]
            split at h
            case h_1 heq =>
              cases h
            case h_2 s2 tr2 heq =>
              have hs2 : s2.searched = s.searched.set index (s.searched.getD index 0 + 1) :=
                hrecr _ _ _ heq
              have hs3 : frontier_ok ts (s2.searched.set index (s2.searched.getD index 0 - 1)) := by
                rw [hs2, restore_set]; exact hs
              have hm3 : searched_len (s2.searched.set index (s2.searched.getD index 0 - 1)) = m := by
                rw [hs2, restore_set]; exact hm
              exact ih _ hs3 hm3 h
            case h_3 heq => cases h
            case h_4 heq =>
              exact hrecf ⟨s.searched.set index (s.searched.getD index 0 + 1), s.cache⟩ hs1 hm1
                (by rw [heq])

/-- With fuel exceeding the number of unplaced transactions,
`check_fuel` never exhausts it. -/
theorem check_no_fuelout (ts : Txns K V) :
    ∀ (fuel : Nat) (s : CState), frontier_ok ts s.searched →
      target_len ts < fuel + searched_len s.searched →
      (check_fuel ts fuel s).1 ≠ .fuelout := by
  intro fuel
  induction fuel with
  | zero =>
    intro s hs hf h
    have := sum_le_target s.searched ts hs.1 hs.2
    simp only [searched_len] at hf
    omega
  | succ fuel ih =>
    intro s hs hf h
    rw [check_fuel] at h
    split at h
    · exact RunRes.noConfusion h
    · exact loop_no_fuelout ts _ (searched_len s.searched) (check_restore ts fuel)
        (fun s1 h1 h2 => ih s1 h1 (by omega)) (List.range ts.length) s hs rfl h
end Helpers2

section Helpers3
open Ergosum

variable {K V : Type} [DecidableEq K] [DecidableEq V]

/-- A transaction containing a read of a never-written pair can never
pass the read-feasibility filter: the filter either rejects it first or
hits the panicking `unwrap`. -/
theorem read_filter_bad (ts : Txns K V) (searched : List Nat) :
    ∀ ops : List (Op K V), (∃ k v, Op.get k v ∈ ops ∧ writers ts k v = []) →
      read_filter ts searched ops ≠ some false := by
  intro ops
  induction ops with
  | nil => rintro ⟨k, v, hm, _⟩; simp at hm
  | cons op rest ih =>
    rintro ⟨k, v, hm, hw⟩ h
    cases op with
    | set k' v' =>
      rw [read_filter] at h
      simp only [List.mem_cons] at hm
      rcases hm with hm | hm
      · cases hm
      · exact ih ⟨k, v, hm, hw⟩ h
    | get k' v' =>
      simp only [read_filter] at h
      simp only [List.mem_cons] at hm
      rcases hm with hm | hm
      · injection hm with hk hv
        subst hk
        subst hv
        rw [hw] at h
        simp at h
      · split at h
        · cases h
        · split at h
          · cases h
          · exact ih ⟨k, v, hm, hw⟩ h

theorem cache_ok_cons_false (cache : List (List Nat × Bool)) (x : List Nat)
    (hc : ∀ F, cache.lookup F ≠ some true) :
    ∀ F, ((x, false) :: cache).lookup F ≠ some true := by
  intro F h
  rw [List.lookup] at h
  split at h
  · cases h
  · exact hc F h

/-- If the recursive call can only return `false` (with the invariant
preserved), so can the client loop, and the invariant survives. -/
theorem loop_no_true (ts : Txns K V)
    (recur : CState → RunRes (Bool × CState) × List (List Nat))
    (cb db : Nat) (kb : K) (vb : V)
    (hget : Op.get kb vb ∈ ((ts.getD cb []).getD db ⟨[]⟩).ops)
    (hwb : writers ts kb vb = [])
    (hrecr : ∀ s1 s2 tr, recur s1 = (.ok (false, s2), tr) → s2.searched = s1.searched)
    (hrecnt : ∀ s1 : CState, search_inv ts cb db s1 →
      ∀ b s2 tr, recur s1 = (.ok (b, s2), tr) → b = false ∧ search_inv ts cb db s2) :
    ∀ (is : List Nat) (s : CState), search_inv ts cb db s →
      ∀ b s2 tr, loop_clients ts recur s is = (.ok (b, s2), tr) →
        b = false ∧ search_inv ts cb db s2 := by
  intro is
  induction is with
  | nil =>
    intro s hs b s2 tr h
    rw [loop_clients] at h
    obtain ⟨h1, h2⟩ := Prod.mk.injEq .. ▸ h
    injection h1 with h1
    obtain ⟨hb, hs2⟩ := Prod.mk.injEq .. ▸ h1
    exact ⟨hb.symm, hs2 ▸ hs⟩
  | cons index rest ih =>
    intro s hs b s2 tr h
    simp only [loop_clients] at h
    split at h
    case isFalse => exact ih s hs b s2 tr h
    case isTrue hidx =>
      have hil : index < ts.length := advance_lt_length ts s index hidx
      have hisl : index < s.searched.length := by rw [hs.1.1]; exact hil
      -- the advanced frontier still satisfies the invariant
      have hadv : s.searched.getD index 0 ≠ db ∨ index ≠ cb →
          search_inv ts cb db ⟨s.searched.set index (s.searched.getD index 0 + 1), s.cache⟩ := by
        intro hcase
        refine ⟨frontier_ok_advance ts s.searched index hs.1 hidx, ?_, hs.2.2⟩
        by_cases hic : index = cb
        · subst hic
          rw [getD_set_self _ _ _ hisl]
          rcases hcase with hne | hne
          · have := hs.2.1
            omega
          · exact absurd rfl hne
        · rw [getD_set_ne _ _ _ _ (fun hh => hic hh.symm)]
          exact hs.2.1
      split at h
      case h_1 => cases h
      case h_2 => exact ih s hs b s2 tr h
      case h_3 hrf =>
        -- read filter returned some false: the candidate is not the bad transaction
        have hnotbad : s.searched.getD index 0 ≠ db ∨ index ≠ cb := by
          by_contra hc
          push_neg at hc
          obtain ⟨h1, h2⟩ := hc
          subst h2
          rw [h1] at hrf
          exact read_filter_bad ts s.searched _ ⟨kb, vb, hget, hwb⟩ hrf
        split at h
        case h_1 => cases h
        case h_2 => exact ih s hs b s2 tr h
        case h_3 =>
          split at h
          case h_1 hlk =>
            exact absurd hlk (hs.2.2 _)
          case h_2 =>
            rw [restore_set] at h
            exact ih s hs b s2 tr h
          case h_3 =>
            split at h
            case h_1 sr tr2 heq =>
              -- recursion returned true: impossible
              have := (hrecnt _ (hadv hnotbad) _ _ _ heq).1
              cases this
            case h_2 sr tr2 heq =>
              have hpost := (hrecnt _ (hadv hnotbad) _ _ _ heq).2
              have hsr : sr.searched = s.searched.set index (s.searched.getD index 0 + 1) :=
                hrecr _ _ _ heq
              have hinv3 : search_inv ts cb db
                  ⟨sr.searched.set index (sr.searched.getD index 0 - 1),
                   (sr.searched, false) :: sr.cache⟩ := by
                refine ⟨?_, ?_, cache_ok_cons_false _ _ hpost.2.2⟩
                · rw [hsr, restore_set]; exact hs.1
                · rw [hsr, restore_set]; exact hs.2.1
              have h1 : (loop_clients ts recur
                  ⟨sr.searched.set index (sr.searched.getD index 0 - 1),
                   (sr.searched, false) :: sr.cache⟩ rest).1 = .ok (b, s2) :=
                congrArg Prod.fst h
              have hfull : loop_clients ts recur
                  ⟨sr.searched.set index (sr.searched.getD index 0 - 1),
                   (sr.searched, false) :: sr.cache⟩ rest =
                  (.ok (b, s2), (loop_clients ts recur
                  ⟨sr.searched.set index (sr.searched.getD index 0 - 1),
                   (sr.searched, false) :: sr.cache⟩ rest).2) := by
                rw [← h1]
              exact ih _ hinv3 b s2 _ hfull
            case h_3 heq => cases h
            case h_4 heq => cases h

/-- The full search can only return `false` when the history contains a
read of a never-written pair (the terminal state is unreachable). -/
theorem check_no_true (ts : Txns K V) (cb db : Nat) (kb : K) (vb : V)
    (hcb : cb < ts.length) (hdb : db < (ts.getD cb []).length)
    (hget : Op.get kb vb ∈ ((ts.getD cb []).getD db ⟨[]⟩).ops)
    (hwb : writers ts kb vb = []) :
    ∀ (fuel : Nat) (s : CState), search_inv ts cb db s →
      ∀ b s2 tr, check_fuel ts fuel s = (.ok (b, s2), tr) →
        b = false ∧ search_inv ts cb db s2 := by
  intro fuel
  induction fuel with
  | zero => intro s hs b s2 tr h; rw [check_fuel] at h; cases h
  | succ fuel ih =>
    intro s hs b s2 tr h
    rw [check_fuel] at h
    split at h
    case isTrue hterm =>
      -- terminal state is unreachable: the frontier is strictly below target on client cb
      have hlt := sum_lt_target s.searched ts hs.1.1 hs.1.2 cb hcb (by
        have := hs.2.1; omega)
      rw [searched_len, target_len] at hterm
      rw [target_len] at hlt
      omega
    case isFalse =>
      have h1 : (loop_clients ts (fun s' => check_fuel ts fuel s') s
          (List.range ts.length)).1 = .ok (b, s2) := congrArg Prod.fst h
      exact loop_no_true ts _ cb db kb vb hget hwb (check_restore ts fuel) ih
        (List.range ts.length) s hs b s2 _ (by
          have : loop_clients ts (fun s' => check_fuel ts fuel s') s (List.range ts.length) =
              ((loop_clients ts (fun s' => check_fuel ts fuel s') s (List.range ts.length)).1,
               (loop_clients ts (fun s' => check_fuel ts fuel s') s (List.range ts.length)).2) := rfl
          rw [this, h1])
end Helpers3

section Helpers4
open Ergosum

variable {K V : Type} [DecidableEq K] [DecidableEq V]

theorem zero_searched_getD (ts : Txns K V) (c : Nat) : (zero_searched ts).getD c 0 = 0 := by
  rw [zero_searched, List.getD_eq_getElem?_getD]
  rcases lt_or_ge c ts.length with h | h
  · rw [List.getElem?_replicate_of_lt h]
    rfl
  · rw [List.getElem?_eq_none (by simpa using h)]
    rfl

theorem frontier_ok_zero (ts : Txns K V) : frontier_ok ts (zero_searched ts) :=
  ⟨by simp [zero_searched], fun c _ => by rw [zero_searched_getD]; exact Nat.zero_le _⟩

theorem searched_len_zero (ts : Txns K V) : searched_len (zero_searched ts) = 0 := by
  simp [searched_len, zero_searched, List.sum_replicate]

/-- A transaction with only writes always passes the read filter. -/
theorem read_filter_sets (ts : Txns K V) (searched : List Nat) :
    ∀ ops : List (Op K V), (∀ o ∈ ops, o.isSet = true) →
      read_filter ts searched ops = some false := by
  intro ops
  induction ops with
  | nil => intro _; rw [read_filter]
  | cons op rest ih =>
    intro hall
    cases op with
    | set k v =>
      rw [read_filter]
      exact ih fun o ho => hall o (List.mem_cons_of_mem _ ho)
    | get k v =>
      have := hall _ (List.mem_cons_self _ _)
      simp [Op.isSet] at this

/-- At the zero frontier no future read can be anchored strictly behind
the frontier, so the write-conflict scan of one transaction never
rejects. -/
theorem conflict_ops_zero_no_true (ts : Txns K V) (searched : List Nat)
    (hz : ∀ c, searched.getD c 0 = 0) (considering : Transaction K V) :
    ∀ ops : List (Op K V), conflict_ops ts searched considering ops ≠ some true := by
  intro ops
  induction ops with
  | nil => intro h; rw [conflict_ops] at h; cases h
  | cons op rest ih =>
    intro h
    cases op with
    | set k v => rw [conflict_ops] at h; exact ih h
    | get k v =>
      simp only [conflict_ops] at h
      split at h
      · split at h
        · cases h
        · split at h
          · rename_i hne hall
            obtain ⟨cd, hcd⟩ := List.exists_mem_of_ne_nil _
              (by simpa [List.isEmpty_iff] using hne)
            have := List.all_eq_true.mp hall cd hcd
            rw [hz cd.1] at this
            simp at this
          · exact ih h
      · exact ih h

/-- The write-conflict scan of a transaction containing a read of a
never-written pair whose key the candidate writes cannot complete
normally: it rejects or panics first. -/
theorem conflict_ops_bad (ts : Txns K V) (searched : List Nat) (considering : Transaction K V) :
    ∀ ops : List (Op K V),
      (∃ k v, Op.get k v ∈ ops ∧ writers ts k v = [] ∧ considering.writes k = true) →
      conflict_ops ts searched considering ops ≠ some false := by
  intro ops
  induction ops with
  | nil => rintro ⟨k, v, hm, _⟩; simp at hm
  | cons op rest ih =>
    rintro ⟨k, v, hm, hw, hwr⟩ h
    simp only [List.mem_cons] at hm
    cases op with
    | set k' v' =>
      rcases hm with hm | hm
      · cases hm
      · rw [conflict_ops] at h; exact ih ⟨k, v, hm, hw, hwr⟩ h
    | get k' v' =>
      simp only [conflict_ops] at h
      rcases hm with hm | hm
      · injection hm with hk hv
        subst hk; subst hv
        rw [hwr, hw] at h
        simp at h
      · split at h
        · split at h
          · cases h
          · split at h
            · cases h
            · exact ih ⟨k, v, hm, hw, hwr⟩ h
        · exact ih ⟨k, v, hm, hw, hwr⟩ h

theorem conflict_txns_zero_no_true (ts : Txns K V) (searched : List Nat)
    (hz : ∀ c, searched.getD c 0 = 0) (considering : Transaction K V) :
    ∀ l : List (Transaction K V), conflict_txns ts searched considering l ≠ some true := by
  intro l
  induction l with
  | nil => intro h; rw [conflict_txns] at h; cases h
  | cons t rest ih =>
    intro h
    rw [conflict_txns] at h
    split at h
    · cases h
    · rename_i heq
      exact conflict_ops_zero_no_true ts searched hz considering t.ops heq
    · exact ih h

theorem conflict_txns_bad (ts : Txns K V) (searched : List Nat) (considering : Transaction K V) :
    ∀ l : List (Transaction K V),
      (∃ t ∈ l, ∃ k v, Op.get k v ∈ t.ops ∧ writers ts k v = [] ∧ considering.writes k = true) →
      conflict_txns ts searched considering l ≠ some false := by
  intro l
  induction l with
  | nil => rintro ⟨t, hm, _⟩ _; simp at hm
  | cons t rest ih =>
    rintro ⟨t', hm, hbad⟩ h
    simp only [List.mem_cons] at hm
    rw [conflict_txns] at h
    split at h
    · cases h
    · cases h
    · rename_i heq
      rcases hm with hm | hm
      · subst hm
        exact conflict_ops_bad ts searched considering t'.ops hbad heq
      · exact ih ⟨t', hm, hbad⟩ h

/-- At the zero frontier, with a never-written read in client `cb` whose
key the candidate writes, the write-conflict filter panics. -/
theorem conflict_clients_zero_crash (ts : Txns K V) (searched : List Nat)
    (hz : ∀ c, searched.getD c 0 = 0) (considering : Transaction K V) (index cb : Nat)
    (hcbne : cb ≠ index)
    (hbadcl : ∃ t ∈ ts.getD cb [], ∃ k v, Op.get k v ∈ t.ops ∧ writers ts k v = [] ∧
      considering.writes k = true) :
    ∀ cis : List Nat, cb ∈ cis →
      conflict_clients ts searched considering index cis = none := by
  intro cis
  induction cis with
  | nil => intro hm; simp at hm
  | cons ci rest ih =>
    intro hm
    simp only [List.mem_cons] at hm
    simp only [conflict_clients]
    cases hct : conflict_txns ts searched considering
        ((ts.getD ci []).drop (searched.getD ci 0 + if ci = index then 1 else 0)) with
    | none => rfl
    | some b =>
      cases b with
      | true => exact absurd hct (conflict_txns_zero_no_true ts searched hz considering _)
      | false =>
        rcases hm with hm | hm
        · subst hm
          rw [hz cb, if_neg hcbne] at hct
          exact absurd hct (conflict_txns_bad ts searched considering _ hbadcl)
        · exact ih hm
end Helpers4

section Helpers5
open Ergosum

variable {K V : Type} [DecidableEq K] [DecidableEq V]

theorem getD_mem_of_lt {α : Type} (l : List α) (i : Nat) (d : α) (h : i < l.length) :
    l.getD i d ∈ l := by
  rw [List.getD_eq_getElem l d h]
  exact List.getElem_mem h

/-- The top-level client loop, started from the zero frontier on a
history with a never-written read in client `cb` and an all-writes
candidate at client `j` that writes the offending key, necessarily
panics: no rejection can fire at the zero frontier when the loop
reaches `j`, and the write-conflict scan then hits the missing
reverse-index entry. -/
theorem loop_zero_crash (ts : Txns K V)
    (recur : CState → RunRes (Bool × CState) × List (List Nat))
    (j cb db : Nat) (kb : K) (vb : V)
    (hjlen : 0 < (ts.getD j []).length)
    (hjtxn : ∀ o ∈ ((ts.getD j []).getD 0 (⟨[]⟩ : Transaction K V)).ops, o.isSet = true)
    (hcb : cb < ts.length)
    (hdb : db < (ts.getD cb []).length)
    (hget : Op.get kb vb ∈ ((ts.getD cb []).getD db (⟨[]⟩ : Transaction K V)).ops)
    (hwb : writers ts kb vb = [])
    (hwrj : ((ts.getD j []).getD 0 (⟨[]⟩ : Transaction K V)).writes kb = true)
    (hcbne : cb ≠ j)
    (hrecr : ∀ s1 s2 tr, recur s1 = (.ok (false, s2), tr) → s2.searched = s1.searched)
    (hrecnt : ∀ s1 : CState, search_inv ts cb db s1 →
      ∀ b s2 tr, recur s1 = (.ok (b, s2), tr) → b = false ∧ search_inv ts cb db s2)
    (hrecf : ∀ s1 : CState, frontier_ok ts s1.searched → searched_len s1.searched = 1 →
      (recur s1).1 ≠ .fuelout) :
    ∀ (is : List Nat) (sca : List (List Nat × Bool)),
      (∀ F, sca.lookup F ≠ some true) → j ∈ is →
      (loop_clients ts recur ⟨zero_searched ts, sca⟩ is).1 = .crash := by
  have hbadcl : ∃ t ∈ ts.getD cb [], ∃ k v, Op.get k v ∈ t.ops ∧ writers ts k v = [] ∧
      ((ts.getD j []).getD 0 (⟨[]⟩ : Transaction K V)).writes k = true :=
    ⟨(ts.getD cb []).getD db ⟨[]⟩, getD_mem_of_lt _ _ _ hdb, kb, vb, hget, hwb, hwrj⟩
  intro is
  induction is with
  | nil => intro sca hsc hm; simp at hm
  | cons index rest ih =>
    intro sca hsc hm
    simp only [List.mem_cons] at hm
    simp only [loop_clients]
    by_cases hij : index = j
    · subst hij
      rw [if_pos (by rw [zero_searched_getD]; exact hjlen)]
      rw [zero_searched_getD ts index]
      have hrfj := read_filter_sets ts (zero_searched ts) _ hjtxn
      have hccj := conflict_clients_zero_crash ts (zero_searched ts) (zero_searched_getD ts)
        ((ts.getD index []).getD 0 (⟨[]⟩ : Transaction K V)) index cb hcbne hbadcl
        (List.range ts.length) (List.mem_range.mpr hcb)
      cases hrf : read_filter ts (zero_searched ts)
          ((ts.getD index []).getD 0 (⟨[]⟩ : Transaction K V)).ops with
      | none => rfl
      | some brf =>
        rw [hrf] at hrfj
        injection hrfj with hrfj
        subst hrfj
        cases hcc : conflict_clients ts (zero_searched ts)
            ((ts.getD index []).getD 0 (⟨[]⟩ : Transaction K V)) index
            (List.range ts.length) with
        | none => rfl
        | some bcc => rw [hcc] at hccj; cases hccj
    · have hjrest : j ∈ rest := by
        rcases hm with hm | hm
        · exact absurd hm (fun hh => hij hh.symm)
        · exact hm
      by_cases hidx : (zero_searched ts).getD index 0 < (ts.getD index []).length
      · rw [if_pos hidx]
        have hil : index < ts.length :=
          advance_lt_length ts ⟨zero_searched ts, sca⟩ index hidx
        have hisl : index < (zero_searched ts).length := by
          rw [zero_searched, List.length_replicate]; exact hil
        cases hrf : read_filter ts (zero_searched ts)
            ((ts.getD index []).getD ((zero_searched ts).getD index 0)
              (⟨[]⟩ : Transaction K V)).ops with
        | none => rfl
        | some brf =>
          cases brf with
          | true => exact ih sca hsc hjrest
          | false =>
            cases hcc : conflict_clients ts (zero_searched ts)
                ((ts.getD index []).getD ((zero_searched ts).getD index 0)
                  (⟨[]⟩ : Transaction K V)) index (List.range ts.length) with
            | none => rfl
            | some bcc =>
              cases bcc with
              | true => exact ih sca hsc hjrest
              | false =>
                have hs1inv : search_inv ts cb db
                    ⟨(zero_searched ts).set index ((zero_searched ts).getD index 0 + 1),
                     sca⟩ := by
                  refine ⟨frontier_ok_advance ts _ index (frontier_ok_zero ts) hidx, ?_, hsc⟩
                  by_cases hic : index = cb
                  · subst hic
                    rw [getD_set_self _ _ _ hisl, zero_searched_getD]
                    by_contra hdbz
                    have hdb0 : db = 0 := by omega
                    rw [zero_searched_getD] at hrf
                    rw [hdb0] at hget
                    exact read_filter_bad ts (zero_searched ts) _ ⟨kb, vb, hget, hwb⟩ hrf
                  · rw [getD_set_ne _ _ _ _ (fun hh => hic hh.symm), zero_searched_getD]
                    exact Nat.zero_le _
                cases hcl : List.lookup
                    ((zero_searched ts).set index ((zero_searched ts).getD index 0 + 1)) sca with
                | some bcl =>
                  cases bcl with
                  | true => exact absurd hcl (hsc _)
                  | false =>
                    rw [restore_set]
                    exact ih sca hsc hjrest
                | none =>
                  rcases hre : recur ⟨(zero_searched ts).set index
                      ((zero_searched ts).getD index 0 + 1), sca⟩ with ⟨r, tr2⟩
                  cases r with
                  | ok bs =>
                    rcases bs with ⟨b, s2⟩
                    cases b with
                    | true =>
                      have := (hrecnt _ hs1inv _ _ _ hre).1
                      cases this
                    | false =>
                      have hpost := (hrecnt _ hs1inv _ _ _ hre).2
                      have hs2 : s2.searched = (zero_searched ts).set index
                          ((zero_searched ts).getD index 0 + 1) := hrecr _ _ _ hre
                      have hres : s2.searched.set index (s2.searched.getD index 0 - 1) =
                          zero_searched ts := by
                        rw [hs2, restore_set]
                      have hcont := ih ((s2.searched, false) :: s2.cache)
                        (cache_ok_cons_false _ _ hpost.2.2) hjrest
                      rw [← hres] at hcont
                      exact hcont
                  | crash => rfl
                  | fuelout =>
                    have h1 : searched_len ((zero_searched ts).set index
                        ((zero_searched ts).getD index 0 + 1)) = 1 := by
                      unfold searched_len
                      rw [sum_set_succ _ _ hisl]
                      have hz0 := searched_len_zero ts
                      unfold searched_len at hz0
                      rw [hz0]
                    exact absurd (by rw [hre] :
                        (recur ⟨(zero_searched ts).set index
                          ((zero_searched ts).getD index 0 + 1), sca⟩).1 = .fuelout)
                      (hrecf _ (frontier_ok_advance ts _ index (frontier_ok_zero ts) hidx) h1)
      · rw [if_neg hidx]
        exact ih sca hsc hjrest
end Helpers5

section Helpers6
open Ergosum

theorem lookup_isSome_iff {α β : Type} [DecidableEq α] (k : α) :
    ∀ m : List (α × β), (m.lookup k).isSome ↔ ∃ p ∈ m, p.1 = k := by
  intro m
  induction m with
  | nil => simp [List.lookup]
  | cons p t ih =>
    obtain ⟨a, b⟩ := p
    rw [List.lookup]
    cases hba : k == a with
    | true =>
      have hk : k = a := eq_of_beq hba
      subst hk
      simp only [Option.isSome_some, true_iff]
      exact ⟨(k, b), List.mem_cons_self _ _, rfl⟩
    | false =>
      have hk : k ≠ a := ne_of_beq_false hba
      rw [ih]
      constructor
      · rintro ⟨q, hq, hq1⟩
        exact ⟨q, List.mem_cons_of_mem _ hq, hq1⟩
      · rintro ⟨q, hq, hq1⟩
        rcases List.mem_cons.mp hq with hq | hq
        · subst hq; exact absurd hq1.symm hk
        · exact ⟨q, hq, hq1⟩

theorem lookup_append_isSome {α β : Type} [DecidableEq α] (k : α) (m1 m2 : List (α × β)) :
    ((m1 ++ m2).lookup k).isSome ↔ ((m1.lookup k).isSome ∨ (m2.lookup k).isSome) := by
  simp only [lookup_isSome_iff, List.mem_append]
  constructor
  · rintro ⟨p, hp | hp, h1⟩
    · exact Or.inl ⟨p, hp, h1⟩
    · exact Or.inr ⟨p, hp, h1⟩
  · rintro (⟨p, hp, h1⟩ | ⟨p, hp, h1⟩)
    · exact ⟨p, Or.inl hp, h1⟩
    · exact ⟨p, Or.inr hp, h1⟩

theorem lookup_map_update_isSome {α β : Type} [DecidableEq α] (k k' : α) (w : β)
    (m : List (α × β)) :
    (((m.map fun p => if p.1 = k then (k, w) else p).lookup k')).isSome ↔
      ((m.lookup k').isSome) := by
  simp only [lookup_isSome_iff, List.mem_map]
  constructor
  · rintro ⟨q, ⟨p, hp, hq⟩, h1⟩
    refine ⟨p, hp, ?_⟩
    by_cases hpk : p.1 = k
    · rw [if_pos hpk] at hq
      rw [← hq] at h1
      rw [hpk]
      exact h1
    · rw [if_neg hpk] at hq
      rw [← hq] at h1
      exact h1
  · rintro ⟨p, hp, h1⟩
    by_cases hpk : p.1 = k
    · exact ⟨(k, w), ⟨p, hp, by rw [if_pos hpk]⟩, by rw [← h1, hpk]⟩
    · exact ⟨p, ⟨p, hp, by rw [if_neg hpk]⟩, h1⟩
end Helpers6

section Helpers7
open Ergosum

variable {K V : Type} [DecidableEq K]

theorem vars_insert_isSome_mono (m : List (K × List Nat)) (i : Nat) (op : Op K V) (k' : K)
    (h : (m.lookup k').isSome) : ((vars_insert m i op).lookup k').isSome := by
  cases op with
  | get k v =>
    rw [vars_insert]
    split
    · exact h
    · exact (lookup_append_isSome k' m _).mpr (Or.inl h)
  | set k v =>
    rw [vars_insert]
    cases hm : m.lookup k with
    | some times => exact (lookup_map_update_isSome k k' _ m).mpr h
    | none => exact (lookup_append_isSome k' m _).mpr (Or.inl h)

theorem vars_insert_isSome_self (m : List (K × List Nat)) (i : Nat) (op : Op K V) :
    ((vars_insert m i op).lookup op.key).isSome := by
  cases op with
  | get k v =>
    rw [vars_insert]
    split
    · assumption
    · refine (lookup_append_isSome k m _).mpr (Or.inr ?_)
      simp [List.lookup]
  | set k v =>
    rw [vars_insert]
    cases hm : m.lookup k with
    | some times =>
      refine (lookup_map_update_isSome k k _ m).mpr ?_
      rw [hm]; rfl
    | none =>
      refine (lookup_append_isSome k m _).mpr (Or.inr ?_)
      simp [List.lookup]

theorem vars_insert_isSome_inv (m : List (K × List Nat)) (i : Nat) (op : Op K V) (k' : K)
    (h : ((vars_insert m i op).lookup k').isSome) :
    (m.lookup k').isSome ∨ (op : Op K V).key = k' := by
  cases op with
  | get k v =>
    rw [vars_insert] at h
    split at h
    · exact Or.inl h
    · rcases (lookup_append_isSome k' m _).mp h with h | h
      · exact Or.inl h
      · right
        obtain ⟨p, hp, h1⟩ := (lookup_isSome_iff k' _).mp h
        simp only [List.mem_singleton] at hp
        subst hp
        exact h1.symm ▸ rfl
  | set k v =>
    rw [vars_insert] at h
    split at h
    · exact Or.inl ((lookup_map_update_isSome k k' _ m).mp h)
    · rcases (lookup_append_isSome k' m _).mp h with h | h
      · exact Or.inl h
      · right
        obtain ⟨p, hp, h1⟩ := (lookup_isSome_iff k' _).mp h
        simp only [List.mem_singleton] at hp
        subst hp
        exact h1.symm ▸ rfl

theorem vars_fold_isSome (l : List (Nat × Op K V)) :
    ∀ (m : List (K × List Nat)) (k : K),
      ((m.lookup k).isSome ∨ ∃ p ∈ l, (p.2 : Op K V).key = k) →
      ((l.foldl (fun m p => vars_insert m p.1 p.2) m).lookup k).isSome := by
  induction l with
  | nil =>
    rintro m k (h | ⟨p, hp, _⟩)
    · exact h
    · simp at hp
  | cons q t ih =>
    rintro m k (h | ⟨p, hp, h1⟩)
    · exact ih _ k (Or.inl (vars_insert_isSome_mono m q.1 q.2 k h))
    · simp only [List.mem_cons] at hp
      rcases hp with hp | hp
      · subst hp
        exact ih _ k (Or.inl (h1 ▸ vars_insert_isSome_self m p.1 p.2))
      · exact ih _ k (Or.inr ⟨p, hp, h1⟩)

theorem vars_fold_isSome_inv (l : List (Nat × Op K V)) :
    ∀ (m : List (K × List Nat)) (k : K),
      ((l.foldl (fun m p => vars_insert m p.1 p.2) m).lookup k).isSome →
      (m.lookup k).isSome ∨ ∃ p ∈ l, (p.2 : Op K V).key = k := by
  induction l with
  | nil => intro m k h; exact Or.inl h
  | cons q t ih =>
    intro m k h
    rcases ih _ k h with h | ⟨p, hp, h1⟩
    · rcases vars_insert_isSome_inv m q.1 q.2 k h with h | h
      · exact Or.inl h
      · exact Or.inr ⟨q, List.mem_cons_self _ _, h⟩
    · exact Or.inr ⟨p, List.mem_cons_of_mem _ hp, h1⟩

/-- A key has an entry in `History::vars` exactly when it appears in
some operation of the history. -/
theorem vars_lookup_isSome (H : History K V) (k : K) :
    ((History.vars H).lookup k).isSome ↔ ∃ p ∈ client_ops H, (p.2 : Op K V).key = k := by
  rw [History.vars]
  constructor
  · intro h
    rcases vars_fold_isSome_inv (client_ops H) [] k h with h | h
    · simp [List.lookup] at h
    · exact h
  · intro h
    exact vars_fold_isSome (client_ops H) [] k (Or.inr h)

theorem init_writes_iff [Inhabited V] (H : History K V) (k : K) :
    (init_transaction H).writes k = true ↔ ((History.vars H).lookup k).isSome := by
  rw [init_transaction, Transaction.writes]
  rw [List.any_eq_true]
  rw [lookup_isSome_iff]
  constructor
  · rintro ⟨o, ho, hw⟩
    rw [List.mem_map] at ho
    obtain ⟨p, hp, hpo⟩ := ho
    subst hpo
    simp only [decide_eq_true_eq] at hw
    exact ⟨p, hp, hw⟩
  · rintro ⟨p, hp, h1⟩
    refine ⟨Op.set p.1 default, List.mem_map_of_mem _ hp, by simpa using h1⟩

theorem init_transaction_sets [Inhabited V] (H : History K V) :
    ∀ o ∈ (init_transaction H).ops, o.isSet = true := by
  intro o ho
  rw [init_transaction, List.mem_map] at ho
  obtain ⟨p, _, hpo⟩ := ho
  subst hpo
  rfl

theorem key_occurs_of_get (H : History K V) (c d : Nat) (op : Op K V)
    (hc : c < H.transactions.length) (hd : d < (H.transactions.getD c []).length)
    (hop : op ∈ ((H.transactions.getD c []).getD d (⟨[]⟩ : Transaction K V)).ops) :
    ∃ p ∈ client_ops H, (p.2 : Op K V).key = op.key := by
  refine ⟨(c, op), ?_, rfl⟩
  rw [client_ops, List.mem_flatMap]
  refine ⟨(c, H.transactions.getD c []), ?_, ?_⟩
  · rw [List.mem_enum_iff_get?]
    rw [List.get?_eq_getElem?, List.getD_eq_getElem _ _ hc, List.getElem?_eq_getElem hc]
  · rw [List.mem_flatMap]
    exact ⟨(H.transactions.getD c []).getD d ⟨[]⟩, getD_mem_of_lt _ _ _ hd,
      List.mem_map_of_mem _ hop⟩
end Helpers7

section Helpers8
open Ergosum

theorem getD_append_left {α : Type} (l1 l2 : List α) (i : Nat) (d : α) (h : i < l1.length) :
    (l1 ++ l2).getD i d = l1.getD i d := by
  rw [List.getD_eq_getElem?_getD, List.getD_eq_getElem?_getD, List.getElem?_append_left h]

theorem getD_append_singleton {α : Type} (l1 : List α) (x : α) (d : α) :
    (l1 ++ [x]).getD l1.length d = x := by
  rw [List.getD_eq_getElem?_getD, List.getElem?_concat_length]
  rfl

theorem length_le_target {K V : Type} (ts : Txns K V) (c : Nat) (h : c < ts.length) :
    (ts.getD c []).length ≤ target_len ts := by
  induction ts generalizing c with
  | nil => simp at h
  | cons cl cls ih =>
    cases c with
    | zero =>
      simp only [List.getD_cons_zero, target_len, List.map_cons, List.sum_cons]
      omega
    | succ c =>
      have := ih c (by simpa using h)
      simp only [List.getD_cons_succ, target_len, List.map_cons, List.sum_cons]
      simp only [target_len] at this
      omega

theorem mem_positions {K V : Type} (ts : Txns K V) (pt : (Nat × Nat) × Transaction K V)
    (h : pt ∈ positions ts) :
    pt.1.1 < ts.length ∧ pt.1.2 < (ts.getD pt.1.1 []).length ∧
      pt.2 = (ts.getD pt.1.1 []).getD pt.1.2 ⟨[]⟩ := by
  rw [positions, List.mem_flatMap] at h
  obtain ⟨ic, hic, hpt⟩ := h
  rw [List.mem_map] at hpt
  obtain ⟨dt, hdt, hpt⟩ := hpt
  rw [List.mem_enum_iff_getElem?] at hic hdt
  subst hpt
  obtain ⟨hc, hcv⟩ := List.getElem?_eq_some.mp hic
  obtain ⟨hd, hdv⟩ := List.getElem?_eq_some.mp hdt
  have hgc : ts.getD ic.1 [] = ic.2 := by
    rw [List.getD_eq_getElem?_getD, hic]
    rfl
  refine ⟨hc, ?_, ?_⟩
  · rw [hgc]
    exact hd
  · rw [hgc, List.getD_eq_getElem _ _ hd]
    exact hdv.symm

/-- The amended universal behaviour behind claim C1: a history whose
pre-initialized form contains a read of a never-written `(k, v)` makes
`ser_check` panic — the search cannot complete, in particular it never
returns `false` (nor `true`). -/
theorem ser_check_crash_of_unwritten_read {K V : Type} [DecidableEq K] [DecidableEq V]
    [Inhabited V] (H : History K V)
    (hbad : has_unwritten_read (H.pre_init).transactions = true) :
    H.ser_check = .crash := by
  rw [has_unwritten_read, List.any_eq_true] at hbad
  obtain ⟨pt, hptmem, hpt⟩ := hbad
  rw [List.any_eq_true] at hpt
  obtain ⟨o, homem, ho⟩ := hpt
  cases o with
  | set k v => simp at ho
  | get k v =>
    simp only [decide_eq_true_eq] at ho
    have hwb : writers (H.pre_init).transactions k v = [] := by
      rwa [List.isEmpty_iff] at ho
    obtain ⟨hcb, hdb, hpt2⟩ := mem_positions _ pt hptmem
    rw [hpt2] at homem
    -- names for the two distinguished positions
    set ts := (H.pre_init).transactions with hts
    set n := H.transactions.length with hn
    have htseq : ts = H.transactions ++ [[init_transaction H]] := rfl
    have htslen : ts.length = n + 1 := by rw [htseq]; simp
    have hj : ts.getD n [] = [init_transaction H] := by
      rw [htseq, hn, getD_append_singleton]
    have hj0 : (ts.getD n []).getD 0 (⟨[]⟩ : Transaction K V) = init_transaction H := by
      rw [hj]; rfl
    have hcbn : pt.1.1 ≠ n := by
      intro hceq
      rw [hceq, hj] at hdb hpt2
      simp only [List.length_cons, List.length_nil] at hdb
      have hd0 : pt.1.2 = 0 := by omega
      rw [hceq, hd0, hj0] at homem
      have := init_transaction_sets H _ homem
      simp [Op.isSet] at this
    have hcblt : pt.1.1 < n := by
      rw [htslen] at hcb
      omega
    -- the initial transaction writes the key of the offending read
    have hgetH : Op.get k v ∈
        ((H.transactions.getD pt.1.1 []).getD pt.1.2 (⟨[]⟩ : Transaction K V)).ops := by
      have : ts.getD pt.1.1 [] = H.transactions.getD pt.1.1 [] := by
        rw [htseq, getD_append_left _ _ _ _ hcblt]
      rwa [this] at homem
    have hdbH : pt.1.2 < (H.transactions.getD pt.1.1 []).length := by
      have : ts.getD pt.1.1 [] = H.transactions.getD pt.1.1 [] := by
        rw [htseq, getD_append_left _ _ _ _ hcblt]
      rwa [this] at hdb
    have hwrj : ((ts.getD n []).getD 0 (⟨[]⟩ : Transaction K V)).writes k = true := by
      rw [hj0]
      rw [init_writes_iff, vars_lookup_isSome]
      exact key_occurs_of_get H pt.1.1 pt.1.2 (Op.get k v) hcblt hdbH hgetH
    -- run the top-level search one step and show it panics
    have htarget : 1 ≤ target_len ts := by
      have h1 := length_le_target ts pt.1.1 hcb
      omega
    have hcrash : (SerChecker.check ts).1 = .crash := by
      rw [SerChecker.check, check_fuel]
      rw [if_neg (by
        dsimp only
        rw [searched_len_zero]
        omega)]
      dsimp only
      refine loop_zero_crash ts _ n pt.1.1 pt.1.2 k v ?_ ?_ ?_ ?_ ?_ ?_ ?_ ?_
        (check_restore ts (target_len ts))
        (fun s1 hs1 => check_no_true ts pt.1.1 pt.1.2 k v hcb hdb homem hwb
          (target_len ts) s1 hs1)
        (fun s1 h1 h2 => check_no_fuelout ts (target_len ts) s1 h1 (by omega))
        (List.range ts.length) [] (by intro F h; simp [List.lookup] at h) ?_
      · rw [hj]; simp
      · rw [hj0]; exact init_transaction_sets H
      · exact hcb
      · exact hdb
      · exact homem
      · exact hwb
      · exact hwrj
      · exact hcbn
      · rw [List.mem_range, htslen]
        omega
    rw [History.ser_check]
    rw [hcrash]
end Helpers8

section Helpers9
open Ergosum

theorem digitChar_val (d : Nat) (h : d < 10) : (Nat.digitChar d).toNat - 48 = d := by
  interval_cases d <;> rfl

theorem decVal_append (l : List Char) (c : Char) :
    decVal (l ++ [c]) = 10 * decVal l + (c.toNat - 48) := by
  rw [decVal, List.foldl_append]
  rfl

theorem decVal_decDigits (n : Nat) : decVal (decDigits n) = n := by
  induction n using Nat.strong_induction_on with
  | _ n ih =>
    rw [decDigits]
    by_cases h : n < 10
    · rw [dif_pos h]
      rw [decVal]
      simp only [List.foldl_cons, List.foldl_nil]
      rw [Nat.mul_zero, Nat.zero_add]
      exact digitChar_val n h
    · rw [dif_neg h]
      rw [decVal_append]
      rw [ih (n / 10) (Nat.div_lt_self (by omega) (by omega))]
      rw [digitChar_val _ (Nat.mod_lt _ (by omega))]
      omega

theorem decDigits_inj (a b : Nat) (h : decDigits a = decDigits b) : a = b := by
  have := congrArg decVal h
  rwa [decVal_decDigits, decVal_decDigits] at this

theorem toDigitsCore_eq_decDigits :
    ∀ (fuel n : Nat) (acc : List Char), n < fuel →
      Nat.toDigitsCore 10 fuel n acc = decDigits n ++ acc := by
  intro fuel
  induction fuel with
  | zero => intro n acc h; omega
  | succ fuel ih =>
    intro n acc h
    rw [Nat.toDigitsCore]
    by_cases h10 : n / 10 = 0
    · have hn : n < 10 := by omega
      rw [if_pos h10, decDigits, dif_pos hn, Nat.mod_eq_of_lt hn]
      rfl
    · have hn : ¬ n < 10 := by
        intro hc
        exact h10 (Nat.div_eq_of_lt hc)
      rw [if_neg h10]
      rw [ih (n / 10) _ (by
        have := Nat.div_lt_self (show 0 < n by omega) (show 1 < 10 by omega)
        omega)]
      conv_rhs => rw [decDigits]
      rw [dif_neg hn]
      simp

theorem repr_eq_decDigits (n : Nat) : Nat.repr n = (decDigits n).asString := by
  rw [Nat.repr, Nat.toDigits]
  rw [toDigitsCore_eq_decDigits (n + 1) n [] (Nat.lt_succ_self n)]
  rw [List.append_nil]

theorem nat_repr_inj (a b : Nat) (h : Nat.repr a = Nat.repr b) : a = b := by
  rw [repr_eq_decDigits, repr_eq_decDigits] at h
  apply decDigits_inj
  have := congrArg String.data h
  simpa using this

/-- The String guard implementation is injective in the client index. -/
theorem string_guard_inj (k : String) (i j : Nat) (hij : i ≠ j) :
    GenerateGuard.generate_guard k i ≠ GenerateGuard.generate_guard k j := by
  intro h
  apply hij
  have hd := congrArg String.data h
  simp only [GenerateGuard.generate_guard, String.data_append] at hd
  have h1 := List.append_cancel_right hd
  have h2 := List.append_cancel_right h1
  have h3 := List.append_cancel_left h2
  apply nat_repr_inj
  have : toString i = toString j := by
    apply String.ext  -- data equality
    exact h3
  exact this
end Helpers9

section Helpers10
open Ergosum

variable {K V : Type}

theorem isSet_eq_not_isGet (o : Op K V) : o.isSet = !o.isGet := by
  cases o <;> rfl

/-- Claim C7 content: split splits exactly. -/
theorem split_spec (t : Transaction K V) :
    List.Perm (t.split.1.ops ++ t.split.2.ops) t.ops ∧
    List.Sublist t.split.1.ops t.ops ∧ List.Sublist t.split.2.ops t.ops ∧
    (∀ o ∈ t.split.1.ops, o.isGet = true) ∧
    (∀ o ∈ t.ops, o.isGet = true → o ∈ t.split.1.ops) ∧
    (∀ o ∈ t.split.2.ops, o.isSet = true) ∧
    (∀ o ∈ t.ops, o.isSet = true → o ∈ t.split.2.ops) ∧
    (∀ o ∈ t.split.2.ops, ¬ o.isGet = true) ∧
    (∀ o ∈ t.split.1.ops, ¬ o.isSet = true) := by
  refine ⟨?_, List.filter_sublist _, List.filter_sublist _, ?_, ?_, ?_, ?_, ?_, ?_⟩
  · have hcong : t.ops.filter Op.isSet = t.ops.filter fun o => !o.isGet :=
      List.filter_congr fun o _ => isSet_eq_not_isGet o
    rw [Transaction.split]
    dsimp only
    rw [hcong]
    exact List.filter_append_perm _ _
  · intro o ho
    exact (List.mem_filter.mp ho).2
  · intro o ho hg
    exact List.mem_filter.mpr ⟨ho, hg⟩
  · intro o ho
    exact (List.mem_filter.mp ho).2
  · intro o ho hg
    exact List.mem_filter.mpr ⟨ho, hg⟩
  · intro o ho
    have := (List.mem_filter.mp ho).2
    cases o with
    | set k v => simp [Op.isGet]
    | get k v => simp [Op.isSet] at this
  · intro o ho
    have := (List.mem_filter.mp ho).2
    cases o with
    | set k v => simp [Op.isGet] at this
    | get k v => simp [Op.isSet]

theorem foldl_split_append (c : List (Transaction K V)) :
    ∀ acc : List (Transaction K V),
      c.foldl (fun client t => client ++ [t.split.1, t.split.2]) acc =
        acc ++ c.flatMap fun t => [t.split.1, t.split.2] := by
  induction c with
  | nil => intro acc; simp
  | cons t rest ih =>
    intro acc
    rw [List.foldl_cons, ih, List.flatMap_cons]
    simp

theorem length_flatMap_pair (c : List (Transaction K V)) :
    (c.flatMap fun t => [t.split.1, t.split.2]).length = 2 * c.length := by
  induction c with
  | nil => rfl
  | cons t rest ih =>
    rw [List.flatMap_cons]
    simp only [List.length_append, List.length_cons, List.length_nil, ih]
    omega

theorem getD_map_nil {α β : Type} (f : α → β) (l : List α) (c : Nat) (h : c < l.length)
    (dα : α) (dβ : β) : (l.map f).getD c dβ = f (l.getD c dα) := by
  rw [List.getD_eq_getElem _ _ (by simpa using h), List.getD_eq_getElem _ _ h,
    List.getElem_map]

/-- Claim C5 content: `prefix_check` is `ser_check` of the spec's split
rewrite, which doubles every client and touches nothing else. -/
theorem prefix_check_eq_split_rewrite [DecidableEq K] [DecidableEq V] [Inhabited V]
    (H : History K V) :
    H.prefix_check = (split_rewrite_spec H).ser_check ∧
    (split_rewrite_spec H).transactions.length = H.transactions.length ∧
    ∀ c < H.transactions.length,
      ((split_rewrite_spec H).transactions.getD c []).length =
        2 * (H.transactions.getD c []).length := by
  refine ⟨?_, by simp [split_rewrite_spec], ?_⟩
  · have hfun : (fun c : List (Transaction K V) =>
        c.foldl (fun client t => client ++ [t.split.1, t.split.2]) []) =
          fun c => c.flatMap fun t => [t.split.1, t.split.2] := by
      funext c
      rw [foldl_split_append]
      rfl
    rw [History.prefix_check, split_rewrite_spec, hfun]
  · intro c hc
    rw [split_rewrite_spec]
    dsimp only
    rw [getD_map_nil _ _ c hc []]
    exact length_flatMap_pair _

/-- Claim C9 content: assuming no read hits a missing reverse-index
entry, the read-feasibility filter rejects exactly when some read's
recorded writers all sit at or beyond the frontier — with no exemption
for the candidate's own client. -/
theorem read_filter_iff [DecidableEq K] [DecidableEq V] (ts : Txns K V)
    (searched : List Nat) :
    ∀ ops : List (Op K V), (∀ k v, Op.get k v ∈ ops → writers ts k v ≠ []) →
      (read_filter ts searched ops = some true ↔
        ∃ k v, Op.get k v ∈ ops ∧ ∀ cd ∈ writers ts k v, searched.getD cd.1 0 ≤ cd.2) := by
  intro ops
  induction ops with
  | nil =>
    intro _
    constructor
    · intro h; cases h
    · rintro ⟨k, v, hm, _⟩; simp at hm
  | cons op rest ih =>
    intro hnp
    cases op with
    | set k' v' =>
      rw [read_filter]
      rw [ih (fun k v hm => hnp k v (List.mem_cons_of_mem _ hm))]
      constructor
      · rintro ⟨k, v, hm, hall⟩
        exact ⟨k, v, List.mem_cons_of_mem _ hm, hall⟩
      · rintro ⟨k, v, hm, hall⟩
        rcases List.mem_cons.mp hm with hm | hm
        · cases hm
        · exact ⟨k, v, hm, hall⟩
    | get k' v' =>
      simp only [read_filter]
      have hne : ¬ (writers ts k' v').isEmpty = true := by
        rw [List.isEmpty_iff]
        exact hnp k' v' (List.mem_cons_self _ _)
      rw [if_neg hne]
      by_cases hall : (writers ts k' v').all fun cd => searched.getD cd.1 0 ≤ cd.2
      · rw [if_pos hall]
        constructor
        · intro _
          refine ⟨k', v', List.mem_cons_self _ _, fun cd hcd => ?_⟩
          simpa using List.all_eq_true.mp hall cd hcd
        · intro _
          rfl
      · rw [if_neg hall]
        rw [ih (fun k v hm => hnp k v (List.mem_cons_of_mem _ hm))]
        constructor
        · rintro ⟨k, v, hm, h⟩
          exact ⟨k, v, List.mem_cons_of_mem _ hm, h⟩
        · rintro ⟨k, v, hm, h⟩
          rcases List.mem_cons.mp hm with hm | hm
          · injection hm with hk hv
            subst hk; subst hv
            exfalso
            apply hall
            rw [List.all_eq_true]
            intro cd hcd
            simpa using h cd hcd
          · exact ⟨k, v, hm, h⟩
end Helpers10

section Helpers11
open Ergosum

variable {K V : Type}

theorem client_ops_iff [DecidableEq K] (H : History K V) (k : K) :
    (∃ p ∈ client_ops H, (p.2 : Op K V).key = k) ↔ key_occurs H k := by
  constructor
  · rintro ⟨p, hp, h1⟩
    rw [client_ops, List.mem_flatMap] at hp
    obtain ⟨ic, hic, hp⟩ := hp
    rw [List.mem_flatMap] at hp
    obtain ⟨t, ht, hp⟩ := hp
    rw [List.mem_map] at hp
    obtain ⟨o, ho, hp⟩ := hp
    rw [List.mem_enum_iff_getElem?] at hic
    have hcl : ic.2 ∈ H.transactions := List.getElem?_mem hic
    refine ⟨ic.2, hcl, t, ht, o, ho, ?_⟩
    rw [← h1, ← hp]
  · rintro ⟨cl, hcl, t, ht, o, ho, h1⟩
    obtain ⟨i, hi⟩ := List.mem_iff_getElem?.mp hcl
    refine ⟨(i, o), ?_, h1⟩
    rw [client_ops, List.mem_flatMap]
    refine ⟨(i, cl), List.mem_enum_iff_getElem?.mpr hi, ?_⟩
    rw [List.mem_flatMap]
    exact ⟨t, ht, List.mem_map_of_mem _ ho⟩

/-- Claim C8 content: `pre_init` appends exactly one client holding one
synthetic transaction of `Set(k, default)` for exactly the keys of the
history, after which every key read anywhere has a default write. -/
theorem pre_init_spec [DecidableEq K] [Inhabited V] (H : History K V) :
    (H.pre_init).transactions = H.transactions ++ [[init_transaction H]] ∧
    (∀ o ∈ (init_transaction H).ops, ∃ k, o = Op.set k default ∧ key_occurs H k) ∧
    (∀ k, key_occurs H k → Op.set k default ∈ (init_transaction H).ops) ∧
    (∀ k, key_read (H.pre_init) k →
      ∃ cl ∈ (H.pre_init).transactions, ∃ t ∈ cl, Op.set k default ∈ t.ops) := by
  have hmem : ∀ k : K, key_occurs H k → Op.set k default ∈ (init_transaction H).ops := by
    intro k hk
    have h1 : ((History.vars H).lookup k).isSome :=
      (vars_lookup_isSome H k).mpr ((client_ops_iff H k).mpr hk)
    obtain ⟨p, hp, hp1⟩ := (lookup_isSome_iff k _).mp h1
    rw [init_transaction]
    rw [← hp1]
    exact List.mem_map_of_mem _ hp
  refine ⟨rfl, ?_, hmem, ?_⟩
  · intro o ho
    rw [init_transaction, List.mem_map] at ho
    obtain ⟨p, hp, hpo⟩ := ho
    refine ⟨p.1, hpo.symm, ?_⟩
    refine (client_ops_iff H p.1).mp ?_
    exact (vars_lookup_isSome H p.1).mp ((lookup_isSome_iff p.1 _).mpr ⟨p, hp, rfl⟩)
  · rintro k ⟨cl, hcl, t, ht, v, hget⟩
    have hclm : cl ∈ H.transactions ++ [[init_transaction H]] := hcl
    rcases List.mem_append.mp hclm with hcl' | hcl'
    · have hk : key_occurs H k := ⟨cl, hcl', t, ht, Op.get k v, hget, rfl⟩
      exact ⟨[init_transaction H], List.mem_append_right _ (List.mem_singleton_self _),
        init_transaction H, List.mem_singleton_self _, hmem k hk⟩
    · exfalso
      rw [List.mem_singleton] at hcl'
      subst hcl'
      rw [List.mem_singleton] at ht
      subst ht
      have := init_transaction_sets H _ hget
      simp [Op.isSet] at this

theorem si_ops_isSome [DecidableEq K] [GenerateGuard K] [Inhabited V] [AbnormalValue V]
    (vm : List (K × List Nat)) (index : Nat) :
    ∀ ops : List (Op K V),
      (∀ k v, Op.set k v ∈ ops → ((vm.lookup k)).isSome) →
      (∀ o ∈ ops, o.isSet = true) →
      (si_ops vm index ops).isSome := by
  intro ops
  induction ops with
  | nil => intro _ _; rfl
  | cons op rest ih =>
    intro hks hsets
    cases op with
    | get k v =>
      have := hsets _ (List.mem_cons_self _ _)
      simp [Op.isSet] at this
    | set k v =>
      rw [si_ops]
      obtain ⟨cls, hcls⟩ := Option.isSome_iff_exists.mp
        (hks k v (List.mem_cons_self _ _))
      rw [hcls]
      obtain ⟨rw1, hrw1⟩ := Option.isSome_iff_exists.mp
        (ih (fun k' v' hm => hks k' v' (List.mem_cons_of_mem _ hm))
          (fun o ho => hsets o (List.mem_cons_of_mem _ ho)))
      rw [hrw1]
      rfl

theorem si_txn_isSome [DecidableEq K] [GenerateGuard K] [Inhabited V] [AbnormalValue V]
    (vm : List (K × List Nat)) (index : Nat) (t : Transaction K V)
    (hks : ∀ k v, Op.set k v ∈ t.ops → ((vm.lookup k)).isSome) :
    (si_txn vm index t).isSome := by
  rw [si_txn]
  obtain ⟨rw1, hrw1⟩ := Option.isSome_iff_exists.mp
    (si_ops_isSome vm index (t.split.2).ops
      (fun k v hm => hks k v (List.mem_filter.mp hm).1)
      (fun o ho => (List.mem_filter.mp ho).2))
  rw [hrw1]
  rfl

theorem si_client_isSome [DecidableEq K] [GenerateGuard K] [Inhabited V] [AbnormalValue V]
    (vm : List (K × List Nat)) (index : Nat) :
    ∀ l : List (Transaction K V),
      (∀ t ∈ l, ∀ k v, Op.set k v ∈ t.ops → ((vm.lookup k)).isSome) →
      (si_client vm index l).isSome := by
  intro l
  induction l with
  | nil => intro _; rfl
  | cons t rest ih =>
    intro hks
    rw [si_client]
    obtain ⟨rw1, hrw1⟩ := Option.isSome_iff_exists.mp
      (si_txn_isSome vm index t (hks t (List.mem_cons_self _ _)))
    obtain ⟨cl1, hcl1⟩ := Option.isSome_iff_exists.mp
      (ih (fun t' ht' => hks t' (List.mem_cons_of_mem _ ht')))
    rw [hrw1, hcl1]
    rfl

theorem si_clients_isSome [DecidableEq K] [GenerateGuard K] [Inhabited V] [AbnormalValue V]
    (vm : List (K × List Nat)) :
    ∀ l : List (Nat × List (Transaction K V)),
      (∀ ic ∈ l, ∀ t ∈ (ic : Nat × List (Transaction K V)).2, ∀ k v,
        Op.set k v ∈ t.ops → ((vm.lookup k)).isSome) →
      (si_clients vm l).isSome := by
  intro l
  induction l with
  | nil => intro _; rfl
  | cons ic rest ih =>
    intro hks
    rw [si_clients]
    obtain ⟨c1, hc1⟩ := Option.isSome_iff_exists.mp
      (si_client_isSome vm ic.1 ic.2 (hks ic (List.mem_cons_self _ _)))
    obtain ⟨cs1, hcs1⟩ := Option.isSome_iff_exists.mp
      (ih (fun ic' hic' => hks ic' (List.mem_cons_of_mem _ hic')))
    rw [hc1, hcs1]
    rfl

/-- Claim C10 content: the two panic branches inside `si_check` are
unreachable — the rewrite phase always succeeds. -/
theorem si_rewrite_isSome [DecidableEq K] [DecidableEq V] [GenerateGuard K]
    [Inhabited V] [AbnormalValue V] (H : History K V) :
    (H.si_rewrite).isSome = true := by
  rw [History.si_rewrite]
  apply si_clients_isSome
  intro ic hic t ht k v hset
  apply (vars_lookup_isSome H k).mpr
  apply (client_ops_iff H k).mpr
  rw [List.mem_enum_iff_getElem?] at hic
  exact ⟨ic.2, List.getElem?_mem hic, t, ht, Op.set k v, hset, rfl⟩
end Helpers11

section Claims
open Ergosum

/-- C1 (corrected). For every input history containing a `Get(k, v)`
such that no transaction in the pre-initialized history writes value
`v` to key `k`, `ser_check` does not treat the unwritten read as a
normal `false` outcome: it panics (the reverse-index `unwrap` fails)
and in particular never returns at all, so it never returns `true`
either. -/
theorem C1_ser_check_panics_on_unwritten_read {K V : Type} [DecidableEq K] [DecidableEq V]
    [Inhabited V] (H : History K V)
    (hbad : has_unwritten_read (H.pre_init).transactions = true) :
    H.ser_check = .crash :=
  ser_check_crash_of_unwritten_read H hbad

/-- C1 counterexample to the claim as stated: on the concrete history
`[[Get 0 = 5]]`, whose pre-initialized form writes only the default
value, `ser_check` panics instead of returning `false`. -/
theorem C1_counterexample :
    has_unwritten_read (badRead.pre_init).transactions = true ∧
    History.ser_check badRead = RunRes.crash ∧
    History.ser_check badRead ≠ RunRes.ok false :=
  ⟨by decide, by decide, by decide⟩

/-- C1 witness: the amended theorem applied at the concrete history. -/
theorem C1_witness :
    has_unwritten_read (badRead.pre_init).transactions = true ∧
    History.ser_check badRead = RunRes.crash :=
  ⟨by decide, C1_ser_check_panics_on_unwritten_read badRead (by decide)⟩

/-- C2 (amended). At every recursive call boundary of the SER search
the frontier recorded in the ghost trace is a valid frontier —
`0 ≤ F[c] ≤ |client c|` for every client `c` (the lower bound is the
type `Nat`) — and whenever a call returns `false` the frontier equals
its value at entry.  (A call that returns `true` may leave the frontier
advanced: see the counterexample.) -/
theorem C2_frontier_invariant {K V : Type} [DecidableEq K] [DecidableEq V] (ts : Txns K V)
    (fuel : Nat) (s : CState) (h : frontier_ok ts s.searched) :
    (∀ F ∈ (check_fuel ts fuel s).2, frontier_ok ts F) ∧
    (∀ s' tr, check_fuel ts fuel s = (.ok (false, s'), tr) → s'.searched = s.searched) :=
  ⟨check_trace ts fuel s h, fun s' tr h' => check_restore ts fuel s s' tr h'⟩

/-- C2 counterexample to the claim as stated: on a trivially
serializable history the search returns `true` with the frontier left
at `[1]`, not restored to its entry value `[0]`. -/
theorem C2_counterexample :
    run_final (SerChecker.check singleWrite) = some (true, [1]) ∧
    [1] ≠ zero_searched singleWrite :=
  ⟨by decide, by decide⟩

/-- C2 witness: the amended invariant applied at a concrete search
state. -/
theorem C2_witness :
    frontier_ok singleWrite [0] ∧
    ((∀ F ∈ (check_fuel singleWrite 2 ⟨[0], []⟩).2, frontier_ok singleWrite F) ∧
     (∀ s' tr, check_fuel singleWrite 2 ⟨[0], []⟩ = (.ok (false, s'), tr) →
       s'.searched = [0])) :=
  ⟨by decide, C2_frontier_invariant singleWrite 2 ⟨[0], []⟩ (by decide)⟩

/-- C3 (code bug). On the history `[[Set x = 1]]` client 0 writes `x`,
but `vars` — the map `si_check` consults to generate guard operations —
returns the empty set of client indices for `x`: the source inserts an
empty set when it first meets a key, discarding the writing client's
index. -/
theorem C3_vars_drops_first_writer :
    (History.vars firstSetH).lookup "x" = some [] ∧
    Transaction.writes (⟨[Op.set "x" 1]⟩ : Transaction String Nat) "x" = true :=
  ⟨by decide, by decide⟩

/-- C4 (amended). For the String implementation of `generate_guard`,
guards of the same key are distinct across distinct client indices.
(The usize implementation admits collisions, and neither implementation
can be distinct from arbitrary original keys: see the
counterexample.) -/
theorem C4_string_guard_injective (k : String) (i j : Nat) (hij : i ≠ j) :
    GenerateGuard.generate_guard k i ≠ GenerateGuard.generate_guard k j :=
  string_guard_inj k i j hij

/-- C4 counterexample to the claim as stated: the usize guard collides
across client indices for the same key (`guard(0, 0) = guard(0, 2^54) =
0` under wrapping), and `guard(0, 1) = 1024` is an ordinary `usize`
that an original key can equal. -/
theorem C4_counterexample :
    GenerateGuard.generate_guard (0 : Nat) (2 ^ 54) = GenerateGuard.generate_guard (0 : Nat) 0 ∧
    (2 ^ 54 : Nat) ≠ 0 ∧
    GenerateGuard.generate_guard (0 : Nat) 1 = 1024 := by
  refine ⟨?_, by norm_num, ?_⟩
  · show (2 ^ 54 <<< (10 + 0)) % 2 ^ 64 = (0 <<< (10 + 0)) % 2 ^ 64
    norm_num [Nat.shiftLeft_eq]
  · show (1 <<< (10 + 0)) % 2 ^ 64 = 1024
    norm_num [Nat.shiftLeft_eq]

/-- C4 witness: the amended claim applied at concrete indices. -/
theorem C4_witness :
    (0 : Nat) ≠ 1 ∧
    GenerateGuard.generate_guard "x" 0 ≠ GenerateGuard.generate_guard "x" 1 :=
  ⟨by decide, C4_string_guard_injective "x" 0 1 (by decide)⟩

/-- C6 (confirmed). On the write-skew history, `ser_check` is false
while `si_check` and `prefix_check` are true, exactly as the test suite
asserts. -/
theorem C6_write_skew :
    writeSkew.ser_check = .ok false ∧
    writeSkew.si_check = .ok true ∧
    writeSkew.prefix_check = .ok true :=
  ⟨by decide, by decide, by decide⟩

/-- C9 witness: a transaction whose read's only recorded writer is the
transaction itself, at position `d = F[c]`, is rejected. -/
theorem C9_witness :
    (∀ k v, Op.get k v ∈ [Op.get (0 : Nat) (1 : Nat), Op.set 0 1] →
      writers selfRead k v ≠ []) ∧
    (read_filter selfRead [0] [Op.get (0 : Nat) (1 : Nat), Op.set 0 1] = some true ↔
      ∃ k v, Op.get k v ∈ [Op.get (0 : Nat) (1 : Nat), Op.set 0 1] ∧
        ∀ cd ∈ writers selfRead k v, List.getD [0] cd.1 0 ≤ cd.2) := by
  have hnp : ∀ k v, Op.get k v ∈ [Op.get (0 : Nat) (1 : Nat), Op.set 0 1] →
      writers selfRead k v ≠ [] := by
    intro k v hm
    rcases List.mem_cons.mp hm with h | h
    · injection h with h1 h2
      subst h1; subst h2
      decide
    · rcases List.mem_cons.mp h with h | h
      · cases h
      · simp at h
  exact ⟨hnp, read_filter_iff selfRead [0] _ hnp⟩

end Claims
